import Mathlib

/-!
# create-torrent: `get-files.js`

A shallow embedding of `src/get-files.js` (the file walker of create-torrent with the
`files` / `reverse` / `keepRoot` / `rootFolder` options) and theorems about it.

JavaScript strings are modelled as lists of UTF-16 code units, so that lengths, indices
and slices count what JavaScript counts.  The functions of Node's `path` module are
modelled for the POSIX flavour (`corePath.sep = '/'`).  The `junk` package
is not part of the repository: its predicate `isNotJunk` is a parameter of the walk.
-/

namespace CreateTorrent

/-- A UTF-16 code unit, as a number (below 65536). -/
abbrev CodeUnit := Nat

/-- JavaScript strings, as lists of UTF-16 code units. -/
abbrev Str := List CodeUnit

/-- The UTF-16 code units of a character: one unit in the Basic Multilingual Plane, a
surrogate pair above it. -/
def codeUnits (c : Char) : List CodeUnit :=
  if c.toNat < 65536 then [c.toNat]
  else [55296 + (c.toNat - 65536) / 1024, 56320 + (c.toNat - 65536) % 1024]

/-- The JavaScript string written as the literal `s`. -/
def js (s : String) : Str := (s.toList.map codeUnits).flatten

/-- The code unit of `'*'`. -/
def star : CodeUnit := 42

/-- The code unit of `'.'`. -/
def dot : CodeUnit := 46

/-! ## JavaScript string primitives -/

/-- Model of `s.startsWith(t)`. -/
def startsWith (s t : Str) : Bool := t.isPrefixOf s

/-- Model of `s.endsWith(t)`. -/
def endsWith (s t : Str) : Bool := t.isSuffixOf s

/-- Model of `s.includes(t)` for strings: `t` occurs in `s` as a contiguous substring. -/
def includes : Str → Str → Bool
  | [], t => t.isEmpty
  | c :: cs, t => t.isPrefixOf (c :: cs) || includes cs t

/-- Model of `s.split(c)` for a separator `c` of one code unit. -/
def split (c : CodeUnit) : Str → List Str
  | [] => [[]]
  | x :: xs =>
    if x = c then [] :: split c xs
    else
      match split c xs with
      | [] => [[x]]
      | seg :: segs => (x :: seg) :: segs

/-- Model of `s.indexOf(t)`: index of the first occurrence of `t` in `s`, or `-1`. -/
def indexOf : Str → Str → Int
  | [], t => if t.isEmpty then 0 else -1
  | c :: cs, t =>
    if t.isPrefixOf (c :: cs) then 0
    else if indexOf cs t < 0 then -1 else indexOf cs t + 1

/-- Model of `s.lastIndexOf(c)` for a string `c` of one code unit: index of the last
occurrence, or `-1`. -/
def lastIndexOf (c : CodeUnit) : Str → Int
  | [] => -1
  | x :: xs =>
    if 0 ≤ lastIndexOf c xs then lastIndexOf c xs + 1
    else if x = c then 0 else -1

/-- Model of `s.slice(0, e)`: a negative `e` counts code units from the end of the
string. -/
def sliceTo (s : Str) (e : Int) : Str :=
  if e < 0 then s.take (s.length + e).toNat else s.take e.toNat

/-- Model of `s.replace(pat, '')` with a string pattern: the first occurrence of `pat`
in `s` is removed, wherever it is. -/
def removeFirst (pat : Str) : Str → Str
  | [] => []
  | c :: cs =>
    if pat.isPrefixOf (c :: cs) then (c :: cs).drop pat.length
    else c :: removeFirst pat cs

/-- Joins segments with a separator of one code unit (inverse of `split`). -/
def joinWith (c : CodeUnit) : List Str → Str
  | [] => []
  | [s] => s
  | s :: t :: rest => s ++ c :: joinWith c (t :: rest)

/-! ## Node's `path` module (POSIX) -/

/-- The path separator `corePath.sep`. -/
def sep : CodeUnit := 47

/-- Model of `corePath.basename(p)`: trailing separators are ignored and the part after
the last remaining separator is returned, i.e. the last non-empty segment of `p`
(`''` when there is none). -/
def basename (p : Str) : Str :=
  (((split sep p).filter (fun s => !s.isEmpty)).getLast?).getD []

/-- The part of a string after its last `c` (the whole string when `c` does not occur). -/
def afterLast (c : CodeUnit) : Str → Str
  | [] => []
  | x :: xs => if xs.contains c then afterLast c xs else if x = c then xs else x :: xs

/-- Model of `corePath.extname(p)`: the extension of the last path component, from its
last `'.'` to its end; `''` when the component has no `'.'`, when its only `'.'` is its
first character, or when the component is `'..'`. -/
def extname (p : Str) : Str :=
  let comp := basename p
  let ext := afterLast dot comp
  if !comp.contains dot then []
  else if comp.length = ext.length + 1 then []
  else if comp = [dot, dot] then []
  else dot :: ext

/-- The segment loop of Node's `normalizeString`: empty and `'.'` segments are dropped, a
`'..'` segment removes the segment before it (or is kept, when `allowAboveRoot`, if
there is nothing to remove).  `acc` holds the segments kept so far, last one first. -/
def normalizeSegments (allowAboveRoot : Bool) : List Str → List Str → List Str
  | acc, [] => acc.reverse
  | acc, seg :: rest =>
    if seg = [] ∨ seg = [dot] then normalizeSegments allowAboveRoot acc rest
    else if seg = [dot, dot] then
      match acc with
      | [] =>
        if allowAboveRoot then normalizeSegments allowAboveRoot [seg] rest
        else normalizeSegments allowAboveRoot [] rest
      | top :: acc' =>
        if top = [dot, dot] then
          if allowAboveRoot then normalizeSegments allowAboveRoot (seg :: top :: acc') rest
          else normalizeSegments allowAboveRoot (top :: acc') rest
        else normalizeSegments allowAboveRoot acc' rest
    else normalizeSegments allowAboveRoot (seg :: acc) rest

/-- Model of `corePath.normalize(p)`. -/
def normalize (p : Str) : Str :=
  if p = [] then [dot]
  else
    let isAbsolute := p.head? = some sep
    let trailingSeparator := p.getLast? = some sep
    let body := joinWith sep (normalizeSegments (!isAbsolute) [] (split sep p))
    if body = [] then
      if isAbsolute then [sep] else if trailingSeparator then [dot, sep] else [dot]
    else
      (if isAbsolute then [sep] else []) ++ body ++ (if trailingSeparator then [sep] else [])

/-- Model of `corePath.join(a, b)`: the non-empty arguments are joined with the separator
and the result is normalized. -/
def join (a b : Str) : Str :=
  if a = [] then (if b = [] then [dot] else normalize b)
  else if b = [] then normalize a
  else normalize (a ++ sep :: b)

/-! ## The pattern matcher -/

/-- Embedding of `filter(path, files)`. -/
def filter (path : Str) : List Str → Bool
  | [] => false
  | target :: rest =>
    if startsWith target [star] && endsWith path (extname target) then true
    else if basename path == target || path == target ||
        (split sep path).contains target || startsWith path (normalize target) then true
    else if includes target [star] then
      let dir := ((split star target).get? 0).getD []
      let ext := ((split star target).get? 1).getD []
      ((split sep path).contains dir || (split sep dir).all (fun element => includes path element))
        && endsWith path ext
    else filter path rest

/-- Embedding of `shouldInclude(path, options)`; `files` and `reverse` are the two
fields the function destructures from `options`. -/
def shouldInclude (path : Str) (files : List Str) (reverse : Bool) : Bool :=
  let matched := filter path files
  if reverse then !matched else matched

/-! ## The file system and the walk -/

/-- What `fs.stat` and `fs.readdir` report for a path and, for a directory, for the
entries below it.  The walk reaches the entry `name` of the directory at `path` by the
string `corePath.join(path, name)`. -/
inductive Node where
  /-- `fs.stat` fails. -/
  | statFails
  /-- A regular file; `size` is what the second `fs.stat` (of `getFileInfo`) reports,
  `none` when that call fails. -/
  | file (size : Option Nat)
  /-- A directory whose `fs.readdir` fails. -/
  | unreadableDir
  /-- A directory with its entries, in the order `fs.readdir` lists them. -/
  | dir (entries : List (Str × Node))
  /-- Neither a directory nor a regular file. -/
  | other

/-- How an asynchronous call ends: the callback gets an error, is never called, or gets
a value. -/
inductive Outcome (α : Type) where
  | error
  | pending
  | ok (value : α)
  deriving DecidableEq, Repr

/-- The value a `traversePath` callback receives: a file info object `{length, path}` or
an array of such values (the results of `run-parallel`, nested as the directories are). -/
inductive Result where
  | info (length : Nat) (path : Str)
  | array (items : List Result)

/-- A raw descriptor `{length, path}`, `path` being the walk path. -/
structure RawDescriptor where
  length : Nat
  path : Str
  deriving DecidableEq, Repr

/-- A returned descriptor: `path` is the segment list, `getStream` opens the walk path
captured before rewriting (modelled by that path). -/
structure FileDescriptor where
  length : Nat
  path : List Str
  getStream : Str
  deriving DecidableEq, Repr

/-- The options object: `files` is `none` when `options.files` is not an array, `reverse`
is `none` when `options.reverse` is not a boolean; `keepRoot` and `rootFolder` stand for
the truthiness and the content of the fields of that name. -/
structure Options where
  keepRoot : Bool := false
  files : Option (List Str) := none
  reverse : Option Bool := none
  rootFolder : Str := []
  deriving DecidableEq, Repr

/-- Embedding of `notHidden(file)`: `file[0] !== '.'`. -/
def notHidden (file : Str) : Bool := file.head? != some dot

/-- Embedding of `getFileInfo(path, cb)`. -/
def getFileInfo (path : Str) (size : Option Nat) : Outcome Result :=
  match size with
  | none => .error
  | some n => .ok (.info n path)

/-- Model of `run-parallel`: the callback gets the first error if a task fails, is
never called while a task has not called back, and gets the results in task order
otherwise. -/
def parallel : List (Outcome Result) → Outcome (List Result)
  | [] => .ok []
  | t :: ts =>
    match t with
    | .error => .error
    | .pending =>
      match parallel ts with
      | .error => .error
      | _ => .pending
    | .ok r =>
      match parallel ts with
      | .error => .error
      | .pending => .pending
      | .ok rs => .ok (r :: rs)

mutual
/-- Embedding of `traversePath(path, options, getFileInfo, cb)`; the outcome is what `cb`
receives.  The function first sets `options.files` to `[]` unless it is an array and
`options.reverse` to `false` unless it is a boolean: `shouldInclude` reads the fields
after this defaulting. -/
def traversePath (isNotJunk : Str → Bool) (options : Options) :
    Str → Node → Outcome Result
  | _, .statFails => .error
  | _, .unreadableDir => .error
  | path, .dir entries =>
    match parallel (traverseEntries isNotJunk options path entries) with
    | .error => .error
    | .pending => .pending
    | .ok results => .ok (.array results)
  | path, .file size =>
    let result := shouldInclude path (options.files.getD []) (options.reverse.getD false)
    if result then .ok (.array []) else getFileInfo path size
  | _, .other => .pending
/-- The tasks `entries.filter(notHidden).filter(isNotJunk).map(entry => ...)` of a
directory, each given by its outcome. -/
def traverseEntries (isNotJunk : Str → Bool) (options : Options) :
    Str → List (Str × Node) → List (Outcome Result)
  | _, [] => []
  | path, (entry, node) :: rest =>
    if notHidden entry && isNotJunk entry then
      traversePath isNotJunk options (join path entry) node ::
        traverseEntries isNotJunk options path rest
    else traverseEntries isNotJunk options path rest
end

mutual
/-- Model of `items.flat(Infinity)`. -/
def flatInfinity : List Result → List RawDescriptor
  | [] => []
  | r :: rs => flatElement r ++ flatInfinity rs
/-- What one element contributes to `flat(Infinity)`. -/
def flatElement : Result → List RawDescriptor
  | .info length path => [⟨length, path⟩]
  | .array items => flatInfinity items
end

/-- The string `getFiles` removes from every walk path (the effective root). -/
def effectiveRoot (path : Str) (options : Options) : Str :=
  let path := normalize path
  let path :=
    if options.keepRoot then
      if options.rootFolder.isEmpty then sliceTo path (lastIndexOf sep path + 1)
      else sliceTo path (indexOf path options.rootFolder)
    else path
  if path.getLast? != some sep then path ++ [sep] else path

/-- Embedding of `getFiles(path, options, cb)`; the outcome is what `cb` receives.
`options = none` stands for an argument that is not an object or has no entries. -/
def getFiles (isNotJunk : Str → Bool) (path : Str) (root : Node)
    (options : Option Options) : Outcome (List FileDescriptor) :=
  let options : Options := options.getD { keepRoot := false, rootFolder := [] }
  match traversePath isNotJunk options path root with
  | .error => .error
  | .pending => .pending
  | .ok files =>
    let files :=
      match files with
      | .array items => flatInfinity items
      | .info length path => [⟨length, path⟩]
    let path := effectiveRoot path options
    .ok (files.map fun file =>
      { length := file.length
        getStream := file.path
        path := split sep (removeFirst path file.path) })

/-- The file name of a path: what follows its last separator. -/
def fileName (path : Str) : Str := ((split sep path).getLast?).getD []

/-! ## Reference notions for the walk -/

/-- The path of the walk at the entries `segs` below `root`: each step is a
`corePath.join`. -/
def walkPath (root : Str) (segs : List Str) : Str := segs.foldl join root

mutual
/-- Every `fs.stat` and `fs.readdir` in the tree succeeds and every entry is a directory
or a regular file. -/
def Node.regular : Node → Bool
  | .file (some _) => true
  | .dir entries => regularEntries entries
  | _ => false
/-- The entries of a directory are all regular trees. -/
def regularEntries : List (Str × Node) → Bool
  | [] => true
  | (_, node) :: rest => node.regular && regularEntries rest
end

mutual
/-- The regular files of a tree that are not below a hidden or junk entry, each with the
list of entry names that leads to it from the root of the tree and with its size, in
listing order. -/
def filesUnder (isNotJunk : Str → Bool) : Node → List (List Str × Option Nat)
  | .file size => [([], size)]
  | .dir entries => filesIn isNotJunk entries
  | _ => []
/-- The regular files below the entries of a directory. -/
def filesIn (isNotJunk : Str → Bool) : List (Str × Node) → List (List Str × Option Nat)
  | [] => []
  | (entry, node) :: rest =>
    (if notHidden entry && isNotJunk entry then
      (filesUnder isNotJunk node).map (fun f => (entry :: f.1, f.2))
    else []) ++ filesIn isNotJunk rest
end

mutual
/-- Every entry name in the tree is a file name: non-empty and without separator. -/
def Node.validNames : Node → Bool
  | .dir entries => validEntryNames entries
  | _ => true
/-- The names of the entries of a directory, and those below them, are file names. -/
def validEntryNames : List (Str × Node) → Bool
  | [] => true
  | (entry, node) :: rest =>
    !entry.isEmpty && !entry.contains sep && node.validNames && validEntryNames rest
end

/-- The raw descriptors a completed walk at `path` collects: one for each reached regular
file for which `shouldInclude` is false. -/
def collected (isNotJunk : Str → Bool) (files : List Str) (reverse : Bool) (path : Str)
    (node : Node) : List RawDescriptor :=
  (filesUnder isNotJunk node).filterMap fun f =>
    if shouldInclude (walkPath path f.1) files reverse then none
    else f.2.map fun size => ⟨size, walkPath path f.1⟩

/-- The raw descriptors collected below the entries of the directory at `path`. -/
def collectedIn (isNotJunk : Str → Bool) (files : List Str) (reverse : Bool) (path : Str)
    (entries : List (Str × Node)) : List RawDescriptor :=
  (filesIn isNotJunk entries).filterMap fun f =>
    if shouldInclude (walkPath path f.1) files reverse then none
    else f.2.map fun size => ⟨size, walkPath path f.1⟩

/-- A plain path segment: non-empty, without separator, and neither `.` nor `..`. -/
def Plain (s : Str) : Prop := s ≠ [] ∧ sep ∉ s ∧ s ≠ [dot] ∧ s ≠ [dot, dot]

/-- The absolute path with the given segments. -/
def absPath (segs : List Str) : Str := sep :: joinWith sep segs

/-- The rewriting `getFiles` applies to a raw descriptor, given the effective root. -/
def rewrite (root : Str) (file : RawDescriptor) : FileDescriptor :=
  { length := file.length
    getStream := file.path
    path := split sep (removeFirst root file.path) }

/-- The options `getFiles` works with: its argument, or the default object. -/
def effectiveOptions (options : Option Options) : Options :=
  options.getD { keepRoot := false, rootFolder := [] }

/-- The descriptors `getFiles` is to deliver for the directory entries `entries` at the
root path `root`: one for each reached regular file for which `shouldInclude` is false,
its `path` being the list of entry names that leads to the file. -/
def descriptorsBelow (isNotJunk : Str → Bool) (root : Str) (entries : List (Str × Node))
    (options : Options) (lead : List Str) : List FileDescriptor :=
  (filesIn isNotJunk entries).filterMap fun f =>
    if shouldInclude (walkPath root f.1) (options.files.getD []) (options.reverse.getD false)
    then none
    else f.2.map fun size =>
      { length := size, path := lead ++ f.1, getStream := walkPath root f.1 }

/-- The tree of the scenarios: `a.jpg`, `.DS_Store` and `sub/b.jpg`. -/
def photos : List (Str × Node) :=
  [((js "a.jpg"), .file (some 10)), ((js ".DS_Store"), .file (some 1)),
    ((js "sub"), .dir [((js "b.jpg"), .file (some 20))])]

/-- A directory listing with a regular file `a.jpg` and an entry `pipe` that is neither a
directory nor a regular file. -/
def withPipe : List (Str × Node) :=
  [((js "a.jpg"), .file (some 10)), ((js "pipe"), .other)]

/-- The raw descriptors of all reached regular files of a tree whose size is known. -/
def allRaw (isNotJunk : Str → Bool) (path : Str) (node : Node) : List RawDescriptor :=
  (filesUnder isNotJunk node).filterMap fun f =>
    f.2.map fun size => ⟨size, walkPath path f.1⟩

/-- The first test of `filter` for one pattern (the extension rule):
`target.startsWith('*') && path.endsWith(corePath.extname(target))`. -/
def extensionRule (path target : Str) : Bool :=
  startsWith target [star] && endsWith path (extname target)

/-- The second test of `filter` for one pattern (name, path, segment or prefix). -/
def nameRule (path target : Str) : Bool :=
  basename path == target || path == target ||
    (split sep path).contains target || startsWith path (normalize target)

/-- The value the third test of `filter` returns for a pattern that contains `'*'`
(the wildcard rule), `dir` and `ext` being the first two parts of
`target.split('*')`. -/
def wildcardRule (path target : Str) : Bool :=
  let dir := ((split star target).get? 0).getD []
  let ext := ((split star target).get? 1).getD []
  ((split sep path).contains dir || (split sep dir).all (fun element => includes path element))
    && endsWith path ext

mutual
/-- The nodes the walk visits, each with its walk path: the root and, below a directory
that can be listed, the entries that are neither hidden nor junk. -/
def visited (isNotJunk : Str → Bool) : Str → Node → List (Str × Node)
  | path, .statFails => [(path, .statFails)]
  | path, .file size => [(path, .file size)]
  | path, .unreadableDir => [(path, .unreadableDir)]
  | path, .other => [(path, .other)]
  | path, .dir entries => (path, .dir entries) :: visitedIn isNotJunk path entries
/-- The nodes the walk visits below the entries of the directory at `path`. -/
def visitedIn (isNotJunk : Str → Bool) : Str → List (Str × Node) → List (Str × Node)
  | _, [] => []
  | path, (entry, node) :: rest =>
    (if notHidden entry && isNotJunk entry then visited isNotJunk (join path entry) node
    else []) ++ visitedIn isNotJunk path rest
end

/-- A file system call for a visited node fails: its `fs.stat`, its `fs.readdir`, or the
size `fs.stat` of `getFileInfo`, which is made for the files that `traversePath` selects
for output (those with `shouldInclude` false). -/
def callFails (options : Options) (path : Str) : Node → Bool
  | .statFails => true
  | .unreadableDir => true
  | .file none => !shouldInclude path (options.files.getD []) (options.reverse.getD false)
  | .file (some _) => false
  | .dir _ => false
  | .other => false

/-- The node is neither a directory nor a regular file. -/
def Node.isOther : Node → Bool
  | .other => true
  | .statFails => false
  | .unreadableDir => false
  | .file _ => false
  | .dir _ => false

mutual
/-- All regular files of a tree, hidden and junk ones included, each with the list of
entry names that leads to it from the root and with its size, in listing order. -/
def allFiles : Node → List (List Str × Option Nat)
  | .file size => [([], size)]
  | .dir entries => allFilesIn entries
  | .statFails => []
  | .unreadableDir => []
  | .other => []
/-- All regular files below the entries of a directory. -/
def allFilesIn : List (Str × Node) → List (List Str × Option Nat)
  | [] => []
  | (entry, node) :: rest =>
    (allFiles node).map (fun f => (entry :: f.1, f.2)) ++ allFilesIn rest
end

/-- The tree of the scenarios with a failing `fs.stat` for `sub/b.jpg`. -/
def photosFailing : List (Str × Node) :=
  [((js "a.jpg"), .file (some 10)), ((js ".DS_Store"), .file (some 1)),
    ((js "sub"), .dir [((js "b.jpg"), .statFails)])]

/-! ## Code units -/

theorem star_ne_dot : star ≠ dot := by decide

/-- String literals are read as their UTF-16 code units: a character outside the Basic
Multilingual Plane gives a surrogate pair. -/
theorem js_examples :
    js "/*." = [sep, star, dot] ∧ js "a.jpg" = [97, 46, 106, 112, 103] ∧
      js "𝄞" = [55348, 56606] ∧ (js "😀/").length = 3 := by
  decide

/-! ## The model of `path` on the examples of Node's documentation -/

/-- Values of `corePath.basename` and `corePath.extname` given in Node's documentation. -/
theorem basename_extname_examples :
    basename (js "/foo/bar/baz/asdf/quux.html") = (js "quux.html") ∧
      extname (js "index.html") = (js ".html") ∧
      extname (js "index.coffee.md") = (js ".md") ∧
      extname (js "index.") = (js ".") ∧
      extname (js "index") = [] ∧
      extname (js ".index") = [] ∧
      extname (js ".index.md") = (js ".md") := by
  decide

/-- Values of `corePath.normalize` and `corePath.join`. -/
theorem normalize_join_examples :
    normalize (js "/foo/bar//baz/asdf/quux/..") = (js "/foo/bar/baz/asdf") ∧
      normalize (js "") = (js ".") ∧
      normalize (js "../a/../../b/") = (js "../../b/") ∧
      join (js "/foo") (js "bar") = (js "/foo/bar") ∧
      join (js "/foo/bar/") (js "../baz") = (js "/foo/baz") := by
  decide

/-! ## Lemmas on strings -/

theorem startsWith_iff (s t : Str) : startsWith s t = true ↔ t <+: s := by
  simp [startsWith]

theorem endsWith_iff (s t : Str) : endsWith s t = true ↔ t <:+ s := by
  simp [endsWith]

theorem includes_iff (s t : Str) : includes s t = true ↔ t <:+: s := by
  induction s with
  | nil => simp [includes, List.isEmpty_iff]
  | cons c cs ih => simp [includes, ih, List.infix_cons_iff]

theorem split_ne_nil (c : CodeUnit) (s : Str) : split c s ≠ [] := by
  cases s with
  | nil => simp [split]
  | cons x xs =>
    simp only [split]
    split_ifs
    · simp
    · cases split c xs <;> simp

theorem split_cons_ne (c x : CodeUnit) (xs : Str) (h : x ≠ c) :
    split c (x :: xs) = (x :: (split c xs).headD []) :: (split c xs).tail := by
  simp only [split, if_neg h]
  cases hs : split c xs with
  | nil => exact absurd hs (split_ne_nil c xs)
  | cons seg segs => simp

theorem split_of_not_mem (c : CodeUnit) (s : Str) (h : c ∉ s) : split c s = [s] := by
  induction s with
  | nil => simp [split]
  | cons x xs ih =>
    simp only [List.mem_cons, not_or] at h
    rw [split_cons_ne c x xs (Ne.symm h.1), ih h.2]
    simp

theorem split_append_sep (c : CodeUnit) (a b : Str) (h : c ∉ a) :
    split c (a ++ c :: b) = a :: split c b := by
  induction a with
  | nil => simp [split]
  | cons x xs ih =>
    simp only [List.mem_cons, not_or] at h
    rw [List.cons_append, split_cons_ne c x _ (Ne.symm h.1), ih h.2]
    simp

theorem joinWith_cons (c : CodeUnit) (s : Str) (segs : List Str) (h : segs ≠ []) :
    joinWith c (s :: segs) = s ++ c :: joinWith c segs := by
  cases segs with
  | nil => exact absurd rfl h
  | cons t rest => simp [joinWith]

theorem joinWith_split (c : CodeUnit) (s : Str) : joinWith c (split c s) = s := by
  induction s with
  | nil => simp [split, joinWith]
  | cons x xs ih =>
    by_cases hx : x = c
    · simp only [split, if_pos hx]
      rw [joinWith_cons c [] _ (split_ne_nil c xs), ih, hx]
      simp
    · rw [split_cons_ne c x xs hx]
      cases hs : split c xs with
      | nil => exact absurd hs (split_ne_nil c xs)
      | cons seg segs =>
        rw [hs] at ih
        cases segs with
        | nil => simpa [joinWith] using ih
        | cons t rest =>
          simp only [joinWith, List.headD_cons, List.tail_cons, List.cons_append] at ih ⊢
          rw [ih]

theorem not_mem_of_mem_split (c : CodeUnit) (s t : Str) (h : t ∈ split c s) : c ∉ t := by
  induction s generalizing t with
  | nil => simp [split] at h; simp [h]
  | cons x xs ih =>
    by_cases hx : x = c
    · simp only [split, if_pos hx, List.mem_cons] at h
      rcases h with h | h
      · simp [h]
      · exact ih t h
    · rw [split_cons_ne c x xs hx] at h
      cases hs : split c xs with
      | nil => exact absurd hs (split_ne_nil c xs)
      | cons seg segs =>
        rw [hs] at h
        simp only [List.headD_cons, List.tail_cons, List.mem_cons] at h
        rcases h with h | h
        · subst h
          have := ih seg (by simp [hs])
          simp [this, Ne.symm hx]
        · exact ih t (by simp [hs, h])

theorem split_joinWith (c : CodeUnit) (segs : List Str) (hne : segs ≠ [])
    (h : ∀ s ∈ segs, c ∉ s) : split c (joinWith c segs) = segs := by
  induction segs with
  | nil => exact absurd rfl hne
  | cons s rest ih =>
    cases rest with
    | nil => simpa [joinWith] using split_of_not_mem c s (h s (by simp))
    | cons t rest' =>
      rw [joinWith_cons c s _ (by simp), split_append_sep c s _ (h s (by simp)),
        ih (by simp) (fun u hu => h u (List.mem_cons_of_mem _ hu))]

theorem infix_of_mem_split (c : CodeUnit) (s t : Str) (h : t ∈ split c s) : t <:+: s := by
  induction s generalizing t with
  | nil => simp [split] at h; simp [h]
  | cons x xs ih =>
    by_cases hx : x = c
    · simp only [split, if_pos hx, List.mem_cons] at h
      rcases h with h | h
      · subst h; exact List.nil_infix
      · exact (ih t h).trans (List.infix_cons (List.infix_refl _))
    · rw [split_cons_ne c x xs hx] at h
      cases hs : split c xs with
      | nil => exact absurd hs (split_ne_nil c xs)
      | cons seg segs =>
        rw [hs] at h
        simp only [List.headD_cons, List.tail_cons, List.mem_cons] at h
        rcases h with h | h
        · subst h
          have hj := joinWith_split c xs
          rw [hs] at hj
          have hp : seg <+: xs := by
            cases segs with
            | nil => simp [joinWith] at hj; simp [hj]
            | cons u rest => simp only [joinWith] at hj; exact ⟨_, hj⟩
          exact ((List.prefix_cons_inj x).2 hp).isInfix
        · exact (ih t (by simp [hs, h])).trans (List.infix_cons (List.infix_refl _))

theorem joinWith_append (c : CodeUnit) (a b : List Str) (ha : a ≠ []) (hb : b ≠ []) :
    joinWith c (a ++ b) = joinWith c a ++ c :: joinWith c b := by
  induction a with
  | nil => exact absurd rfl ha
  | cons s rest ih =>
    cases rest with
    | nil => simp [joinWith, joinWith_cons c s b hb]
    | cons t rest' =>
      rw [List.cons_append, joinWith_cons c s _ (by simp), ih (by simp),
        joinWith_cons c s _ (by simp)]
      simp

theorem split_getLast_suffix (c : CodeUnit) (s l : Str) (h : (split c s).getLast? = some l) :
    l <:+ s := by
  obtain ⟨ys, hys⟩ := List.getLast?_eq_some_iff.1 h
  have hj := joinWith_split c s
  rw [hys] at hj
  by_cases hy : ys = []
  · subst hy
    simp [joinWith] at hj
    simp [hj]
  · rw [joinWith_append c ys [l] hy (by simp)] at hj
    simp only [joinWith] at hj
    exact ⟨joinWith c ys ++ [c], by simpa using hj⟩

theorem basename_mem_split (p : Str) : basename p ∈ split sep p := by
  unfold basename
  cases h : ((split sep p).filter (fun s => !s.isEmpty)).getLast? with
  | none =>
    simp only [Option.getD_none]
    rw [List.getLast?_eq_none_iff] at h
    cases hs : split sep p with
    | nil => exact absurd hs (split_ne_nil sep p)
    | cons seg segs =>
      have : seg ∉ (split sep p).filter (fun s => !s.isEmpty) := by simp [h]
      simp [hs, List.mem_filter] at this
      simp [this]
  | some x =>
    simp only [Option.getD_some]
    exact (List.mem_filter.1 (List.mem_of_getLast?_eq_some h)).1

theorem basename_infix (p : Str) : basename p <:+: p :=
  infix_of_mem_split sep p _ (basename_mem_split p)

theorem sep_not_mem_basename (p : Str) : sep ∉ basename p :=
  not_mem_of_mem_split sep p _ (basename_mem_split p)

theorem basename_of_not_mem (s : Str) (h : sep ∉ s) : basename s = s := by
  unfold basename
  rw [split_of_not_mem sep s h]
  cases s <;> simp [List.filter]

/-- When `p` does not end with the separator, its basename is its last segment, a suffix. -/
theorem basename_suffix (p : Str) (h : p.getLast? ≠ some sep) : basename p <:+ p := by
  obtain ⟨l, hl⟩ : ∃ l, (split sep p).getLast? = some l := by
    cases hs : (split sep p).getLast? with
    | none => exact absurd (List.getLast?_eq_none_iff.1 hs) (split_ne_nil sep p)
    | some l => exact ⟨l, rfl⟩
  have hsuf := split_getLast_suffix sep p l hl
  obtain ⟨ys, hys⟩ := List.getLast?_eq_some_iff.1 hl
  by_cases hle : l = []
  · -- the last segment is empty: `p` is empty (it does not end with the separator)
    subst hle
    have hj := joinWith_split sep p
    rw [hys] at hj
    by_cases hy : ys = []
    · subst hy
      simp [joinWith] at hj
      subst hj
      simp [basename, split]
    · rw [joinWith_append sep ys [[]] hy (by simp)] at hj
      simp only [joinWith] at hj
      rw [← hj] at h
      simp at h
  · have : basename p = l := by
      unfold basename
      have hf : List.filter (fun s => !s.isEmpty) [l] = [l] := by
        cases l with
        | nil => exact absurd rfl hle
        | cons a b => rfl
      rw [hys, List.filter_append, hf, List.getLast?_concat]
      rfl
    rw [this]; exact hsuf

theorem contains_eq_true_iff (c : CodeUnit) (s : Str) : s.contains c = true ↔ c ∈ s := by
  simp

theorem afterLast_cons_mem (c x : CodeUnit) (xs : Str) (h : c ∈ xs) :
    afterLast c (x :: xs) = afterLast c xs := by
  simp [afterLast, h]

theorem afterLast_cons_not_mem (c : CodeUnit) (xs : Str) (h : c ∉ xs) :
    afterLast c (c :: xs) = xs := by
  simp [afterLast, h]

theorem afterLast_spec (c : CodeUnit) (s : Str) (h : c ∈ s) :
    c ∉ afterLast c s ∧ ∃ pre, s = pre ++ c :: afterLast c s := by
  induction s with
  | nil => simp at h
  | cons x xs ih =>
    by_cases hx : c ∈ xs
    · obtain ⟨h1, pre, h2⟩ := ih hx
      rw [afterLast_cons_mem c x xs hx]
      exact ⟨h1, x :: pre, by rw [List.cons_append, ← h2]⟩
    · have hxc : x = c := by
        rcases List.mem_cons.1 h with h | h
        · exact h.symm
        · exact absurd h hx
      rw [hxc, afterLast_cons_not_mem c xs hx]
      exact ⟨hx, [], by simp⟩

theorem afterLast_of_not_mem (c : CodeUnit) (a pre : Str) (h : c ∉ a) :
    afterLast c (pre ++ c :: a) = a := by
  induction pre with
  | nil => simp [afterLast, h]
  | cons x xs ih => simp [afterLast, ih]

/-- The extension is a suffix of the basename. -/
theorem extname_suffix_basename (p : Str) : extname p <:+ basename p := by
  unfold extname
  simp only
  split_ifs with h1 h2 h3
  · exact List.nil_suffix
  · exact List.nil_suffix
  · exact List.nil_suffix
  · have h1' : dot ∈ basename p := by simpa using h1
    obtain ⟨_, pre, hpre⟩ := afterLast_spec dot (basename p) h1'
    exact ⟨pre, hpre.symm⟩

theorem extname_cases (p : Str) :
    extname p = [] ∨ ∃ a, extname p = dot :: a ∧ dot ∉ a ∧ sep ∉ a := by
  by_cases h1 : dot ∈ basename p
  · obtain ⟨hn, pre, hpre⟩ := afterLast_spec dot (basename p) h1
    have hsep : sep ∉ afterLast dot (basename p) := by
      intro hm
      apply sep_not_mem_basename p
      rw [hpre]; simp [hm]
    unfold extname
    simp only
    split_ifs
    · exact Or.inl rfl
    · exact Or.inl rfl
    · exact Or.inl rfl
    · exact Or.inr ⟨_, rfl, hn, hsep⟩
  · left
    unfold extname
    simp [h1]

theorem extname_star_dot (a : Str) (h1 : dot ∉ a) (h2 : sep ∉ a) :
    extname (star :: dot :: a) = dot :: a := by
  have hb : basename (star :: dot :: a) = star :: dot :: a :=
    basename_of_not_mem _ (by
      have h3 : sep ≠ star := by decide
      have h4 : sep ≠ dot := by decide
      simp [h2, h3, h4])
  have ha : afterLast dot (star :: dot :: a) = a := afterLast_of_not_mem dot a [star] h1
  unfold extname
  simp only [hb, ha]
  simp [star_ne_dot]

theorem extname_star : extname [star] = [] := by decide

theorem normalize_plain (s : Str) (h0 : s ≠ []) (h1 : sep ∉ s) (h2 : s ≠ [dot])
    (h3 : s ≠ [dot, dot]) : normalize s = s := by
  have hh : s.head? ≠ some sep := by
    intro h
    exact h1 (List.mem_of_mem_head? h)
  have hl : s.getLast? ≠ some sep := by
    intro h
    exact h1 (List.mem_of_getLast?_eq_some h)
  unfold normalize
  simp only [if_neg h0, hh, hl, split_of_not_mem sep s h1]
  simp [normalizeSegments, h0, h2, h3, joinWith]

theorem fileName_suffix (path : Str) : fileName path <:+ path := by
  unfold fileName
  cases h : (split sep path).getLast? with
  | none => exact absurd (List.getLast?_eq_none_iff.1 h) (split_ne_nil sep path)
  | some l => exact split_getLast_suffix sep path l h

theorem filter_singleton (path target : Str) :
    filter path [target] =
      ((startsWith target [star] && endsWith path (extname target)) ||
        (basename path == target || path == target ||
          (split sep path).contains target || startsWith path (normalize target)) ||
        (includes target [star] &&
          (((split sep path).contains (((split star target).get? 0).getD []) ||
            (split sep (((split star target).get? 0).getD [])).all
              (fun element => includes path element)) &&
            endsWith path (((split star target).get? 1).getD [])))) := by
  simp only [filter]
  split_ifs <;> simp_all

theorem filter_cons_of_star (path target : Str) (rest : List Str)
    (h : includes target [star] = true) :
    filter path (target :: rest) = filter path [target] := by
  simp only [filter, h, if_true]

theorem filter_cons_of_no_star (path target : Str) (rest : List Str)
    (h : includes target [star] = false) :
    filter path (target :: rest) = (filter path [target] || filter path rest) := by
  simp only [filter, h]
  split_ifs <;> simp_all

/-- Whenever `filter` accepts a path, one of the patterns accepts it on its own. -/
theorem filter_sound (path : Str) (files : List Str) (h : filter path files = true) :
    ∃ t ∈ files, filter path [t] = true := by
  induction files with
  | nil => simp [filter] at h
  | cons t rest ih =>
    cases hs : includes t [star] with
    | true =>
      rw [filter_cons_of_star path t rest hs] at h
      exact ⟨t, by simp, h⟩
    | false =>
      rw [filter_cons_of_no_star path t rest hs, Bool.or_eq_true] at h
      rcases h with h | h
      · exact ⟨t, by simp, h⟩
      · obtain ⟨u, hu, hf⟩ := ih h
        exact ⟨u, List.mem_cons_of_mem _ hu, hf⟩

/-! ## Lemmas on the walk -/

theorem parallel_cons_ok (t : Outcome Result) (ts : List (Outcome Result)) (rs : List Result)
    (h : parallel (t :: ts) = .ok rs) :
    ∃ r rs', t = .ok r ∧ parallel ts = .ok rs' ∧ rs = r :: rs' := by
  simp only [parallel] at h
  cases t <;> cases hp : parallel ts <;> simp_all

theorem parallel_cons_of_ok (r : Result) (ts : List (Outcome Result)) (rs : List Result)
    (h : parallel ts = .ok rs) : parallel (.ok r :: ts) = .ok (r :: rs) := by
  simp [parallel, h]

theorem walkPath_cons (p e : Str) (segs : List Str) :
    walkPath p (e :: segs) = walkPath (join p e) segs := rfl

theorem collectedIn_cons_visible (J : Str → Bool) (files : List Str) (rev : Bool) (p e : Str)
    (n : Node) (rest : List (Str × Node)) (h : (notHidden e && J e) = true) :
    collectedIn J files rev p ((e, n) :: rest) =
      collected J files rev (join p e) n ++ collectedIn J files rev p rest := by
  simp only [collectedIn, collected, filesIn, h, if_true, List.filterMap_append,
    List.filterMap_map]
  rfl

theorem collectedIn_cons_pruned (J : Str → Bool) (files : List Str) (rev : Bool) (p e : Str)
    (n : Node) (rest : List (Str × Node)) (h : (notHidden e && J e) = false) :
    collectedIn J files rev p ((e, n) :: rest) = collectedIn J files rev p rest := by
  simp [collectedIn, filesIn, h]

mutual
/-- What a completed walk hands to its callback flattens to the collected descriptors. -/
theorem traversePath_ok (J : Str → Bool) (options : Options) :
    ∀ (p : Str) (n : Node) (res : Result), traversePath J options p n = .ok res →
      flatElement res = collected J (options.files.getD []) (options.reverse.getD false) p n
  | p, .statFails, res, h => by simp [traversePath] at h
  | p, .unreadableDir, res, h => by simp [traversePath] at h
  | p, .other, res, h => by simp [traversePath] at h
  | p, .file size, res, h => by
    simp only [traversePath] at h
    by_cases hs : shouldInclude p (options.files.getD []) (options.reverse.getD false) = true
    · simp only [hs, if_true] at h
      cases h
      simp [flatElement, flatInfinity, collected, filesUnder, walkPath, hs]
    · simp only [hs] at h
      cases size with
      | none => simp [getFileInfo] at h
      | some k =>
        simp [getFileInfo] at h
        subst h
        simp [flatElement, collected, filesUnder, walkPath, hs]
  | p, .dir es, res, h => by
    simp only [traversePath] at h
    cases hp : parallel (traverseEntries J options p es) with
    | error => simp [hp] at h
    | pending => simp [hp] at h
    | ok rs =>
      simp [hp] at h
      subst h
      have := traverseEntries_ok J options p es rs hp
      simpa [flatElement, collected, collectedIn, filesUnder] using this
/-- The results of the tasks of a directory flatten to what is collected below it. -/
theorem traverseEntries_ok (J : Str → Bool) (options : Options) :
    ∀ (p : Str) (es : List (Str × Node)) (rs : List Result),
      parallel (traverseEntries J options p es) = .ok rs →
      flatInfinity rs = collectedIn J (options.files.getD []) (options.reverse.getD false) p es
  | p, [], rs, h => by
    simp [traverseEntries, parallel] at h
    subst h
    simp [flatInfinity, collectedIn, filesIn]
  | p, (e, n) :: rest, rs, h => by
    simp only [traverseEntries] at h
    cases hv : (notHidden e && J e) with
    | true =>
      simp only [hv, if_true] at h
      obtain ⟨r, rs', h1, h2, h3⟩ := parallel_cons_ok _ _ _ h
      subst h3
      rw [collectedIn_cons_visible J _ _ p e n rest hv, flatInfinity,
        traversePath_ok J options (join p e) n r h1,
        traverseEntries_ok J options p rest rs' h2]
    | false =>
      simp only [hv] at h
      rw [collectedIn_cons_pruned J _ _ p e n rest hv]
      exact traverseEntries_ok J options p rest rs h
end

mutual
/-- On a regular tree the walk completes. -/
theorem traversePath_regular (J : Str → Bool) (options : Options) :
    ∀ (p : Str) (n : Node), n.regular = true → ∃ res, traversePath J options p n = .ok res
  | p, .statFails, h => by simp [Node.regular] at h
  | p, .unreadableDir, h => by simp [Node.regular] at h
  | p, .other, h => by simp [Node.regular] at h
  | p, .file none, h => by simp [Node.regular] at h
  | p, .file (some k), h => by
    simp only [traversePath, getFileInfo]
    split_ifs <;> simp
  | p, .dir es, h => by
    simp only [Node.regular] at h
    obtain ⟨rs, hrs⟩ := traverseEntries_regular J options p es h
    exact ⟨.array rs, by simp [traversePath, hrs]⟩
/-- On regular entries every task of the directory completes. -/
theorem traverseEntries_regular (J : Str → Bool) (options : Options) :
    ∀ (p : Str) (es : List (Str × Node)), regularEntries es = true →
      ∃ rs, parallel (traverseEntries J options p es) = .ok rs
  | p, [], h => ⟨[], by simp [traverseEntries, parallel]⟩
  | p, (e, n) :: rest, h => by
    simp only [regularEntries, Bool.and_eq_true] at h
    obtain ⟨rs, hrs⟩ := traverseEntries_regular J options p rest h.2
    simp only [traverseEntries]
    split_ifs
    · obtain ⟨r, hr⟩ := traversePath_regular J options (join p e) n h.1
      exact ⟨r :: rs, by rw [hr]; exact parallel_cons_of_ok r _ rs hrs⟩
    · exact ⟨rs, hrs⟩
end

/-! ## Lemmas on normalized absolute paths -/

theorem joinWith_ne_nil (c : CodeUnit) (L : List Str) (s : Str) (hs : s ∈ L) (hne : s ≠ []) :
    joinWith c L ≠ [] := by
  induction L with
  | nil => simp at hs
  | cons t rest ih =>
    cases rest with
    | nil =>
      simp at hs
      subst hs
      simpa [joinWith] using hne
    | cons u rest' =>
      rw [joinWith_cons c t _ (by simp)]
      simp

theorem joinWith_getLast (c : CodeUnit) (L : List Str) (s : Str) :
    (joinWith c (L ++ [s])).getLast? = if s = [] then (if L = [] then none else some c)
      else s.getLast? := by
  by_cases hL : L = []
  · subst hL
    by_cases hs : s = []
    · simp [joinWith, hs]
    · simp [joinWith, hs]
  · rw [joinWith_append c L [s] hL (by simp)]
    simp only [joinWith, if_neg hL]
    by_cases hs : s = []
    · subst hs
      rw [if_pos rfl]
      have : joinWith c L ++ [c] = (joinWith c L) ++ [c] := rfl
      rw [List.getLast?_concat]
    · rw [if_neg hs]
      have : joinWith c L ++ c :: s = (joinWith c L ++ [c]) ++ s := by simp
      rw [this, List.getLast?_append_of_ne_nil _ hs]

theorem normalizeSegments_plain (b : Bool) (L : List Str) :
    ∀ acc : List Str, (∀ s ∈ L, s = [] ∨ Plain s) →
      normalizeSegments b acc L = acc.reverse ++ L.filter (fun s => !s.isEmpty) := by
  induction L with
  | nil => intro acc _; simp [normalizeSegments]
  | cons s rest ih =>
    intro acc h
    have hrest : ∀ t ∈ rest, t = [] ∨ Plain t := fun t ht => h t (List.mem_cons_of_mem _ ht)
    rcases h s (by simp) with hs | hs
    · subst hs
      simp [normalizeSegments, ih acc hrest]
    · obtain ⟨h0, _, h2, h3⟩ := hs
      have hf : (!s.isEmpty) = true := by
        cases s with
        | nil => exact absurd rfl h0
        | cons a b => rfl
      simp only [normalizeSegments, h0, h2, h3, false_or, if_false, List.filter_cons, hf,
        if_true]
      rw [ih (s :: acc) hrest]
      simp

theorem normalizeSegments_mem (L : List Str) :
    ∀ acc : List Str, (∀ s ∈ acc, Plain s) → (∀ s ∈ L, sep ∉ s) →
      ∀ s ∈ normalizeSegments false acc L, Plain s := by
  induction L with
  | nil => intro acc ha _ s hs; simp [normalizeSegments] at hs; exact ha s hs
  | cons t rest ih =>
    intro acc ha hL
    have hrest : ∀ s ∈ rest, sep ∉ s := fun s hs => hL s (List.mem_cons_of_mem _ hs)
    by_cases h1 : t = [] ∨ t = [dot]
    · simp only [normalizeSegments, if_pos h1]
      exact ih acc ha hrest
    · by_cases h2 : t = [dot, dot]
      · cases acc with
        | nil =>
          simp only [normalizeSegments, if_neg h1, if_pos h2, Bool.false_eq_true, if_false]
          exact ih [] ha hrest
        | cons top acc' =>
          by_cases h3 : top = [dot, dot]
          · simp only [normalizeSegments, if_neg h1, if_pos h2, if_pos h3,
              Bool.false_eq_true, if_false]
            exact ih (top :: acc') ha hrest
          · simp only [normalizeSegments, if_neg h1, if_pos h2, if_neg h3]
            exact ih acc' (fun s hs => ha s (List.mem_cons_of_mem _ hs)) hrest
      · simp only [normalizeSegments, if_neg h1, if_neg h2]
        refine ih (t :: acc) ?_ hrest
        intro s hs
        rcases List.mem_cons.1 hs with hs | hs
        · subst hs
          simp only [not_or] at h1
          exact ⟨h1.1, hL s (by simp), h1.2, h2⟩
        · exact ha s hs

theorem plain_getLast (s : Str) (h : Plain s) : s.getLast? ≠ some sep := fun hl =>
  h.2.1 (List.mem_of_getLast?_eq_some hl)

theorem plain_filter (P : List Str) (h : ∀ s ∈ P, Plain s) :
    P.filter (fun s => !s.isEmpty) = P := by
  rw [List.filter_eq_self]
  intro s hs
  have := (h s hs).1
  cases s with
  | nil => exact absurd rfl this
  | cons a b => rfl

/-- Normalizing an absolute path given by plain and empty segments, the last one plain. -/
theorem normalize_absolute (L : List Str) (s : Str) (hL : ∀ t ∈ L, t = [] ∨ Plain t)
    (hs : Plain s) :
    normalize (sep :: joinWith sep (L ++ [s])) =
      absPath (L.filter (fun t => !t.isEmpty) ++ [s]) := by
  have hall : ∀ t ∈ L ++ [s], t = [] ∨ Plain t := by
    intro t ht
    rcases List.mem_append.1 ht with ht | ht
    · exact hL t ht
    · simp at ht; subst ht; exact Or.inr hs
  have hnosep : ∀ t ∈ L ++ [s], sep ∉ t := by
    intro t ht
    rcases hall t ht with h | h
    · subst h; simp
    · exact h.2.1
  have hsplit : split sep (sep :: joinWith sep (L ++ [s])) = [] :: (L ++ [s]) := by
    have h1 := split_append_sep sep [] (joinWith sep (L ++ [s])) (by simp)
    rw [List.nil_append] at h1
    rw [h1, split_joinWith sep (L ++ [s]) (by simp) hnosep]
  have hlast : (sep :: joinWith sep (L ++ [s])).getLast? ≠ some sep := by
    have hne : joinWith sep (L ++ [s]) ≠ [] := joinWith_ne_nil sep _ s (by simp) hs.1
    obtain ⟨a, b, hab⟩ := List.exists_cons_of_ne_nil hne
    rw [hab, List.getLast?_cons_cons, ← hab, joinWith_getLast, if_neg hs.1]
    exact plain_getLast s hs
  have hfs : ([s] : List Str).filter (fun t => !t.isEmpty) = [s] := plain_filter [s] (by simpa using hs)
  have hseg : normalizeSegments false [] ([] :: (L ++ [s])) =
      L.filter (fun t => !t.isEmpty) ++ [s] := by
    rw [normalizeSegments_plain false _ [] (by
      intro t ht
      rcases List.mem_cons.1 ht with ht | ht
      · exact Or.inl ht
      · exact hall t ht)]
    simp only [List.reverse_nil, List.nil_append, List.filter_cons, List.isEmpty_nil,
      Bool.not_true, Bool.false_eq_true, if_false, List.filter_append, hfs]
  have hbody : joinWith sep (L.filter (fun t => !t.isEmpty) ++ [s]) ≠ [] :=
    joinWith_ne_nil sep _ s (by simp) hs.1
  unfold normalize
  simp only [List.head?_cons, hsplit, hlast, if_false, if_true, Bool.not_true,
    decide_True, decide_False, hseg, if_neg hbody]
  simp [absPath]

/-- An absolute path that `corePath.normalize` leaves unchanged consists of plain
segments, with or without one trailing separator. -/
theorem normalized_absolute_form (r : Str) (habs : r.head? = some sep)
    (hnorm : normalize r = r) :
    ∃ P : List Str, (∀ s ∈ P, Plain s) ∧
      (r = absPath P ∨ (P ≠ [] ∧ r = absPath P ++ [sep])) := by
  have hne : r ≠ [] := by
    intro h; subst h; simp at habs
  have hP : ∀ s ∈ normalizeSegments false [] (split sep r), Plain s :=
    normalizeSegments_mem (split sep r) [] (by simp)
      (fun s hs => not_mem_of_mem_split sep r s hs)
  unfold normalize at hnorm
  simp only [if_neg hne, habs, if_true, Bool.not_true, decide_True] at hnorm
  by_cases hb : joinWith sep (normalizeSegments false [] (split sep r)) = []
  · rw [if_pos hb] at hnorm
    exact ⟨[], by simp, Or.inl (by rw [← hnorm]; rfl)⟩
  · rw [if_neg hb] at hnorm
    refine ⟨normalizeSegments false [] (split sep r), hP, ?_⟩
    by_cases ht : r.getLast? = some sep
    · right
      refine ⟨?_, ?_⟩
      · intro h0
        rw [h0] at hb
        exact hb rfl
      · rw [if_pos ht] at hnorm
        conv_lhs => rw [← hnorm]
        simp [absPath]
    · left
      rw [if_neg ht] at hnorm
      conv_lhs => rw [← hnorm]
      simp [absPath]

theorem absPath_ne_nil (P : List Str) : absPath P ≠ [] := by simp [absPath]

/-- One step of the walk below an absolute normalized directory path. -/
theorem join_absolute (P : List Str) (r s : Str) (hP : ∀ t ∈ P, Plain t) (hs : Plain s)
    (hr : r = absPath P ∨ (P ≠ [] ∧ r = absPath P ++ [sep])) :
    join r s = absPath (P ++ [s]) := by
  have hr0 : r ≠ [] := by
    rcases hr with h | ⟨_, h⟩ <;> simp [h, absPath]
  have hj : join r s = normalize (r ++ sep :: s) := by
    simp [join, hr0, hs.1]
  rw [hj]
  have hPf : P.filter (fun t => !t.isEmpty) = P := plain_filter P hP
  rcases hr with h | ⟨hne, h⟩
  · by_cases hPn : P = []
    · subst hPn
      have : r ++ sep :: s = sep :: joinWith sep ([[]] ++ [s]) := by
        simp [h, absPath, joinWith]
      rw [this, normalize_absolute [[]] s (by simp) hs]
      simp
    · have : r ++ sep :: s = sep :: joinWith sep (P ++ [s]) := by
        rw [h, joinWith_append sep P [s] hPn (by simp)]
        simp [absPath, joinWith]
      rw [this, normalize_absolute P s (fun t ht => Or.inr (hP t ht)) hs, hPf]
  · have : r ++ sep :: s = sep :: joinWith sep ((P ++ [[]]) ++ [s]) := by
      rw [h, joinWith_append sep (P ++ [[]]) [s] (by simp) (by simp),
        joinWith_append sep P [[]] hne (by simp)]
      simp [absPath, joinWith]
    rw [this, normalize_absolute (P ++ [[]]) s (by
      intro t ht
      rcases List.mem_append.1 ht with ht | ht
      · exact Or.inr (hP t ht)
      · simp at ht; exact Or.inl ht) hs]
    simp [List.filter_append, hPf]

/-- The walk path of the entries `ss` below an absolute normalized directory path. -/
theorem walkPath_absolute (ss : List Str) :
    ∀ (P : List Str) (r : Str), (∀ t ∈ P, Plain t) → (∀ t ∈ ss, Plain t) → ss ≠ [] →
      (r = absPath P ∨ (P ≠ [] ∧ r = absPath P ++ [sep])) →
      walkPath r ss = absPath (P ++ ss) := by
  induction ss with
  | nil => intro P r _ _ h; exact absurd rfl h
  | cons s rest ih =>
    intro P r hP hss _ hr
    have hs : Plain s := hss s (by simp)
    rw [walkPath_cons, join_absolute P r s hP hs hr]
    by_cases hrest : rest = []
    · subst hrest; rfl
    · rw [ih (P ++ [s]) (absPath (P ++ [s])) (by
        intro t ht
        rcases List.mem_append.1 ht with ht | ht
        · exact hP t ht
        · simp at ht; subst ht; exact hs)
        (fun t ht => hss t (List.mem_cons_of_mem _ ht)) hrest (Or.inl rfl)]
      simp

theorem removeFirst_append (pat rest : Str) (h : pat ≠ []) :
    removeFirst pat (pat ++ rest) = rest := by
  cases pat with
  | nil => exact absurd rfl h
  | cons c cs =>
    have hp : (c :: cs).isPrefixOf (c :: (cs ++ rest)) = true := by
      rw [← List.cons_append, List.isPrefixOf_iff_prefix]
      exact List.prefix_append _ _
    show removeFirst (c :: cs) (c :: (cs ++ rest)) = rest
    rw [removeFirst, if_pos hp]
    simp

/-- The effective root for `keepRoot = false` and an absolute normalized root. -/
theorem effectiveRoot_keepRoot_false (P : List Str) (r : Str) (options : Options)
    (hP : ∀ t ∈ P, Plain t) (hnorm : normalize r = r) (hk : options.keepRoot = false)
    (hr : r = absPath P ∨ (P ≠ [] ∧ r = absPath P ++ [sep])) :
    effectiveRoot r options = if P = [] then [sep] else absPath P ++ [sep] := by
  unfold effectiveRoot
  simp only [hnorm, hk, Bool.false_eq_true, if_false]
  rcases hr with h | ⟨hne, h⟩
  · by_cases hPn : P = []
    · subst hPn
      simp [h, absPath, joinWith]
    · obtain ⟨Q, s, hQ⟩ : ∃ Q s, P = Q ++ [s] := by
        rcases List.eq_nil_or_concat P with h0 | ⟨Q, s, h1⟩
        · exact absurd h0 hPn
        · exact ⟨Q, s, by simpa using h1⟩
      have hs : Plain s := hP s (by simp [hQ])
      have hlast : r.getLast? ≠ some sep := by
        have hne : joinWith sep (Q ++ [s]) ≠ [] := joinWith_ne_nil sep _ s (by simp) hs.1
        obtain ⟨a, b, hab⟩ := List.exists_cons_of_ne_nil hne
        rw [h, absPath, hQ, hab, List.getLast?_cons_cons, ← hab, joinWith_getLast, if_neg hs.1]
        exact plain_getLast s hs
      have hl : (r.getLast? != some sep) = true := by simpa using hlast
      rw [hl, if_pos rfl, if_neg hPn, h]
  · have hlast : r.getLast? = some sep := by
      rw [h, List.getLast?_concat]
    have hl : (r.getLast? != some sep) = false := by simp [hlast]
    rw [hl, if_neg hne, h]
    simp

/-! ## Lemmas on `getFiles` -/

/-- The function `getFiles` in terms of the outcome of the walk. -/
theorem getFiles_eq (J : Str → Bool) (path : Str) (root : Node) (options : Option Options) :
    getFiles J path root options =
      match traversePath J (effectiveOptions options) path root with
      | .error => .error
      | .pending => .pending
      | .ok res => .ok ((flatElement res).map
          (rewrite (effectiveRoot path (effectiveOptions options)))) := by
  unfold getFiles effectiveOptions
  simp only
  cases traversePath J (options.getD { keepRoot := false, rootFolder := [] }) path root with
  | error => rfl
  | pending => rfl
  | ok res =>
    cases res with
    | info l p => rfl
    | array items => rfl

/-- Whenever `getFiles` delivers a list, it is the rewriting of the collected raw
descriptors. -/
theorem getFiles_ok (J : Str → Bool) (path : Str) (root : Node) (options : Option Options)
    (fs : List FileDescriptor) (h : getFiles J path root options = .ok fs) :
    fs = (collected J ((effectiveOptions options).files.getD [])
        ((effectiveOptions options).reverse.getD false) path root).map
          (rewrite (effectiveRoot path (effectiveOptions options))) := by
  rw [getFiles_eq] at h
  cases ht : traversePath J (effectiveOptions options) path root with
  | error => simp [ht] at h
  | pending => simp [ht] at h
  | ok res =>
    simp only [ht, Outcome.ok.injEq] at h
    rw [← h, traversePath_ok J _ path root res ht]

/-- On a regular tree `getFiles` delivers a list. -/
theorem getFiles_regular (J : Str → Bool) (path : Str) (root : Node)
    (options : Option Options) (h : root.regular = true) :
    ∃ fs, getFiles J path root options = .ok fs := by
  obtain ⟨res, hres⟩ := traversePath_regular J (effectiveOptions options) path root h
  rw [getFiles_eq, hres]
  exact ⟨_, rfl⟩

theorem plain_of_visible (e : Str) (h0 : e ≠ []) (h1 : sep ∉ e) (h2 : notHidden e = true) :
    Plain e := by
  refine ⟨h0, h1, ?_, ?_⟩
  · intro h; subst h; exact absurd h2 (by decide)
  · intro h; subst h; exact absurd h2 (by decide)

mutual
/-- The entry names that lead to a reached file are plain segments. -/
theorem filesUnder_plain (J : Str → Bool) :
    ∀ n : Node, n.validNames = true → ∀ f ∈ filesUnder J n, ∀ s ∈ f.1, Plain s
  | .statFails, _, f, hf => by simp [filesUnder] at hf
  | .unreadableDir, _, f, hf => by simp [filesUnder] at hf
  | .other, _, f, hf => by simp [filesUnder] at hf
  | .file size, _, f, hf => by
    simp [filesUnder] at hf
    subst hf
    simp
  | .dir es, hv, f, hf => by
    simp only [Node.validNames] at hv
    simp only [filesUnder] at hf
    exact (filesIn_plain J es hv f hf).2
/-- Below a directory every reached file has at least one entry name, all plain. -/
theorem filesIn_plain (J : Str → Bool) :
    ∀ es : List (Str × Node), validEntryNames es = true →
      ∀ f ∈ filesIn J es, f.1 ≠ [] ∧ ∀ s ∈ f.1, Plain s
  | [], _, f, hf => by simp [filesIn] at hf
  | (e, n) :: rest, hv, f, hf => by
    simp only [validEntryNames, Bool.and_eq_true, Bool.not_eq_true'] at hv
    obtain ⟨⟨⟨h0, h1⟩, hn⟩, hrest⟩ := hv
    have h0' : e ≠ [] := by
      intro h; subst h; simp at h0
    have h1' : sep ∉ e := fun hm => by
      rw [(contains_eq_true_iff sep e).2 hm] at h1
      exact Bool.noConfusion h1
    simp only [filesIn, List.mem_append] at hf
    rcases hf with hf | hf
    · by_cases hvis : (notHidden e && J e) = true
      · simp only [hvis, if_true, List.mem_map] at hf
        obtain ⟨g, hg, hgf⟩ := hf
        subst hgf
        have hvis' := hvis
        simp only [Bool.and_eq_true] at hvis'
        refine ⟨by simp, ?_⟩
        intro s hs
        rcases List.mem_cons.1 hs with hs | hs
        · subst hs
          exact plain_of_visible s h0' h1' hvis'.1
        · exact filesUnder_plain J n hn g hg s hs
      · simp [hvis] at hf
    · exact filesIn_plain J rest hrest f hf
end

theorem collected_dir (J : Str → Bool) (files : List Str) (rev : Bool) (p : Str)
    (es : List (Str × Node)) :
    collected J files rev p (.dir es) = collectedIn J files rev p es := by
  simp [collected, collectedIn, filesUnder]

theorem absPath_append (P ss : List Str) (h : ss ≠ []) :
    absPath (P ++ ss) = (if P = [] then [sep] else absPath P ++ [sep]) ++ joinWith sep ss := by
  by_cases hP : P = []
  · subst hP; simp [absPath]
  · rw [if_neg hP, absPath, joinWith_append sep P ss hP h]
    simp [absPath]

/-- Removing the effective root `root` from the walk path of the entries `ss` and
splitting at the separator gives `lead ++ ss`, when the walk path is `root` followed by
the segments `lead ++ ss`. -/
theorem split_removeFirst (root p : Str) (segs : List Str) (hroot : root ≠ [])
    (hp : p = root ++ joinWith sep segs) (hne : segs ≠ []) (hs : ∀ s ∈ segs, Plain s) :
    split sep (removeFirst root p) = segs := by
  rw [hp, removeFirst_append root _ hroot,
    split_joinWith sep segs hne (fun s h => (hs s h).2.1)]

/-- The rewritten descriptors of a directory walk, given what the effective root is. -/
theorem rewrite_collectedIn (J : Str → Bool) (r root : Str) (es : List (Str × Node))
    (options : Options) (lead : List Str)
    (h : ∀ f ∈ filesIn J es, split sep (removeFirst root (walkPath r f.1)) = lead ++ f.1) :
    (collectedIn J (options.files.getD []) (options.reverse.getD false) r es).map
        (rewrite root) = descriptorsBelow J r es options lead := by
  unfold collectedIn descriptorsBelow
  rw [List.map_filterMap]
  apply List.filterMap_congr
  intro f hf
  by_cases hs : shouldInclude (walkPath r f.1) (options.files.getD [])
      (options.reverse.getD false) = true
  · simp [hs]
  · simp only [hs, if_false, Bool.false_eq_true]
    cases f.2 with
    | none => rfl
    | some size => simp [rewrite, h f hf]

theorem lastIndexOf_of_not_mem (c : CodeUnit) (s : Str) (h : c ∉ s) : lastIndexOf c s = -1 := by
  induction s with
  | nil => rfl
  | cons x xs ih =>
    simp only [List.mem_cons, not_or] at h
    simp [lastIndexOf, ih h.2, Ne.symm h.1]

theorem lastIndexOf_append (c : CodeUnit) (a name : Str) (h : c ∉ name) :
    lastIndexOf c (a ++ c :: name) = a.length := by
  induction a with
  | nil => simp [lastIndexOf, lastIndexOf_of_not_mem c name h]
  | cons x xs ih =>
    simp only [List.cons_append, lastIndexOf, ih]
    simp
    omega

theorem sliceTo_lastIndexOf (a name : Str) (h : sep ∉ name) :
    sliceTo (a ++ sep :: name) (lastIndexOf sep (a ++ sep :: name) + 1) = a ++ [sep] := by
  rw [lastIndexOf_append sep a name h]
  unfold sliceTo
  have : ¬ ((a.length : Int) + 1 < 0) := by omega
  rw [if_neg this]
  have h2 : ((a.length : Int) + 1).toNat = a.length + 1 := by omega
  rw [h2]
  have h3 : a ++ sep :: name = (a ++ [sep]) ++ name := by simp
  rw [h3, List.take_left' (by simp)]

/-- The effective root for `keepRoot = true`, an empty `rootFolder` and an absolute
normalized root that has no trailing separator: the parent directory. -/
theorem effectiveRoot_keepRoot_true (Q : List Str) (name : Str) (options : Options)
    (hQ : ∀ t ∈ Q, Plain t) (hname : Plain name) (hk : options.keepRoot = true)
    (hf : options.rootFolder = []) :
    effectiveRoot (absPath (Q ++ [name])) options =
      if Q = [] then [sep] else absPath Q ++ [sep] := by
  have hall : ∀ t ∈ Q, t = [] ∨ Plain t := fun t ht => Or.inr (hQ t ht)
  have hnorm : normalize (absPath (Q ++ [name])) = absPath (Q ++ [name]) := by
    rw [absPath, normalize_absolute Q name hall hname, plain_filter Q hQ]
    rfl
  have hform : absPath (Q ++ [name]) =
      (if Q = [] then [] else absPath Q) ++ sep :: name := by
    by_cases h : Q = []
    · subst h; simp [absPath, joinWith]
    · rw [if_neg h, absPath, joinWith_append sep Q [name] h (by simp)]
      simp [absPath, joinWith]
  unfold effectiveRoot
  simp only [hnorm, hk, if_true, hf, List.isEmpty_nil]
  rw [hform, sliceTo_lastIndexOf _ name hname.2.1]
  by_cases h : Q = []
  · simp [h]
  · simp [h]

/-! ## The pattern matcher: claims C2, C6, C7, C8 -/

/-- C2 (evaluation at the failing input): with the patterns `['*.jpg', 'bar.txt']` the
path `bar.txt` is rejected, although the pattern `bar.txt` alone accepts it: `filter`
returns from its wildcard rule at the first pattern and never tries the second. -/
theorem filter_not_or_over_patterns :
    filter (js "bar.txt") [(js "*.jpg"), (js "bar.txt")] = false ∧
      filter (js "bar.txt") [(js "bar.txt")] = true := by
  decide

/-- C6 (counterexample): the non-empty path `a.txt/` has extension `.txt`, but the
pattern `'*' + extname(p)` does not select it. -/
theorem filter_own_extension_counterexample :
    (js "a.txt/") ≠ [] ∧ extname (js "a.txt/") = (js ".txt") ∧
      filter (js "a.txt/") [star :: extname (js "a.txt/")] = false := by
  decide

/-- C6 (amended): every path is selected by itself and by its basename, and a path that
does not end with the separator is selected by `'*'` followed by its extension. -/
theorem filter_selects_by_path_name_extension (p : Str) :
    filter p [p] = true ∧ filter p [basename p] = true ∧
      (p.getLast? ≠ some sep → filter p [star :: extname p] = true) := by
  refine ⟨?_, ?_, ?_⟩
  · rw [filter_singleton]; simp
  · rw [filter_singleton]; simp
  · intro h
    have hsuf : extname p <:+ p := (extname_suffix_basename p).trans (basename_suffix p h)
    have hext : extname (star :: extname p) = extname p := by
      rcases extname_cases p with h0 | ⟨a, ha, h1, h2⟩
      · rw [h0]; exact extname_star
      · rw [ha]; exact extname_star_dot a h1 h2
    have h1 : endsWith p (extname (star :: extname p)) = true := by
      rw [hext]; exact (endsWith_iff _ _).2 hsuf
    have h2 : startsWith (star :: extname p) [star] = true := by
      simp [startsWith]
    rw [filter_singleton, h1, h2]; simp

/-- Witness for C6: the amended claim at the path `/data/a.txt`. -/
theorem filter_selects_by_path_name_extension_witness :
    filter (js "/data/a.txt") [(js "/data/a.txt")] = true ∧
      filter (js "/data/a.txt") [basename (js "/data/a.txt")] = true ∧
      filter (js "/data/a.txt") [star :: extname (js "/data/a.txt")] = true :=
  ⟨(filter_selects_by_path_name_extension (js "/data/a.txt")).1,
    (filter_selects_by_path_name_extension (js "/data/a.txt")).2.1,
    (filter_selects_by_path_name_extension (js "/data/a.txt")).2.2 (by decide)⟩

/-- C7: for an extension `e = '.' ++ cs` (`cs` free of `'.'`, `'*'` and the separator;
it need not even be non-empty), `shouldInclude` with the single pattern `'*' ++ e` and `reverse = false` is
true for every path whose file name ends with `e`, and false for every path that does
not end with `e`, has no segment equal to the pattern and does not start with it. -/
theorem extension_wildcard (cs path : Str)
    (hcs : ∀ c ∈ cs, c ≠ dot ∧ c ≠ star ∧ c ≠ sep) :
    (endsWith (fileName path) (dot :: cs) = true →
        shouldInclude path [star :: dot :: cs] false = true) ∧
      (endsWith path (dot :: cs) = false →
        (split sep path).contains (star :: dot :: cs) = false →
        startsWith path (star :: dot :: cs) = false →
        shouldInclude path [star :: dot :: cs] false = false) := by
  have hdot : dot ∉ cs := fun h => (hcs _ h).1 rfl
  have hstar : star ∉ cs := fun h => (hcs _ h).2.1 rfl
  have hsep : sep ∉ cs := fun h => (hcs _ h).2.2 rfl
  have hsd : sep ≠ dot := by decide
  have hss : sep ≠ star := by decide
  have hext : extname (star :: dot :: cs) = dot :: cs := extname_star_dot cs hdot hsep
  have hsw : startsWith (star :: dot :: cs) [star] = true := by simp [startsWith]
  refine ⟨?_, ?_⟩
  · intro h
    have h1 : endsWith path (dot :: cs) = true :=
      (endsWith_iff _ _).2 (((endsWith_iff _ _).1 h).trans (fileName_suffix path))
    simp only [shouldInclude, Bool.false_eq_true, if_false]
    rw [filter_singleton, hext, hsw, h1]; simp
  · intro h1 h2 h3
    have hsept : sep ∉ (star :: dot :: cs) := by simp [hsep, hsd, hss]
    have hnorm : normalize (star :: dot :: cs) = star :: dot :: cs :=
      normalize_plain _ (by simp) hsept (by simp) (by simp [star_ne_dot])
    have hmem : (star :: dot :: cs) ∉ split sep path := by simpa using h2
    have hb : (basename path == star :: dot :: cs) = false := by
      rw [beq_eq_false_iff_ne]
      intro hb
      exact hmem (hb ▸ basename_mem_split path)
    have hp : (path == star :: dot :: cs) = false := by
      rw [beq_eq_false_iff_ne]
      intro hp
      apply hmem
      rw [hp, split_of_not_mem sep _ hsept]
      simp
    have hsplit : split star (star :: dot :: cs) = [[], dot :: cs] := by
      have := split_append_sep star [] (dot :: cs) (by simp)
      rw [List.nil_append] at this
      rw [this, split_of_not_mem star (dot :: cs) (by simp [hstar, star_ne_dot])]
    simp only [shouldInclude, Bool.false_eq_true, if_false]
    rw [filter_singleton, hext, hnorm, hb, hp, h1, h2, h3, hsplit]
    simp [h1]

/-- Witness for C7: the pattern `*.jpg` on the path `/data/photos/a.jpg`, and on
`bar.txt`. -/
theorem extension_wildcard_witness :
    shouldInclude (js "/data/photos/a.jpg") [(js "*.jpg")] false = true ∧
      shouldInclude (js "bar.txt") [(js "*.jpg")] false = false :=
  ⟨(extension_wildcard (js "jpg") (js "/data/photos/a.jpg") (by decide)).1
      (by decide),
    (extension_wildcard (js "jpg") (js "bar.txt") (by decide)).2
      (by decide) (by decide) (by decide)⟩

/-- C8 (counterexample): `dir = 'a'` is non-empty without `'*'` or separator and
`ext = '/../b'` has no `'*'`; `dir` does not occur in the path `b`, and yet the pattern
`a*/../b` matches it, because `corePath.normalize('a*/../b')` is `b`, a prefix. -/
theorem middle_wildcard_counterexample :
    (js "a") ≠ [] ∧ star ∉ (js "a") ∧ sep ∉ (js "a") ∧ star ∉ (js "/../b") ∧
      includes (js "b") (js "a") = false ∧
      filter (js "b") [(js "a") ++ star :: (js "/../b")] = true := by
  decide

/-- C8 (amended): for a non-empty `dir` without `'*'` and separator and an `ext` without
`'*'`, the pattern `dir ++ '*' ++ ext` matches every path that ends with `ext` and has
`dir` among its segments, and matches no path in which `dir` does not occur and which
does not start with the normalized pattern. -/
theorem middle_wildcard (dir ext path : Str) (hd : dir ≠ []) (hstar : star ∉ dir)
    (hsep : sep ∉ dir) (hext : star ∉ ext) :
    (endsWith path ext = true → (split sep path).contains dir = true →
        filter path [dir ++ star :: ext] = true) ∧
      (includes path dir = false →
        startsWith path (normalize (dir ++ star :: ext)) = false →
        filter path [dir ++ star :: ext] = false) := by
  have hsplit : split star (dir ++ star :: ext) = [dir, ext] := by
    rw [split_append_sep star dir ext hstar, split_of_not_mem star ext hext]
  have hinc : includes (dir ++ star :: ext) [star] = true :=
    (includes_iff _ _).2 ⟨dir, ext, by simp⟩
  have hsw : startsWith (dir ++ star :: ext) [star] = false := by
    cases dir with
    | nil => exact absurd rfl hd
    | cons x xs =>
      have : x ≠ star := fun h => hstar (by simp [h])
      simp [startsWith, List.isPrefixOf, Ne.symm this]
  refine ⟨?_, ?_⟩
  · intro h1 h2
    have h2' : dir ∈ split sep path := by simpa using h2
    rw [filter_singleton, hsplit, hinc]
    simp [h1, h2']
  · intro h1 h2
    have hni : ¬ dir <:+: path := by
      intro h
      rw [(includes_iff _ _).2 h] at h1
      exact Bool.noConfusion h1
    have hdt : dir <:+: dir ++ star :: ext := (List.prefix_append _ _).isInfix
    have hmem : (dir ++ star :: ext) ∉ split sep path := fun h =>
      hni (hdt.trans (infix_of_mem_split sep path _ h))
    have hmd : dir ∉ split sep path := fun h => hni (infix_of_mem_split sep path _ h)
    have hb : (basename path == dir ++ star :: ext) = false := by
      rw [beq_eq_false_iff_ne]
      intro hb
      exact hmem (hb ▸ basename_mem_split path)
    have hp : (path == dir ++ star :: ext) = false := by
      rw [beq_eq_false_iff_ne]
      intro hp
      exact hni (hp ▸ hdt)
    have hc1 : (split sep path).contains (dir ++ star :: ext) = false := by simpa using hmem
    have hc2 : (split sep path).contains dir = false := by simpa using hmd
    rw [filter_singleton, hsplit, hinc, hsw, hb, hp, hc1, h2]
    simp [hmd, split_of_not_mem sep dir hsep, h1]

/-- Witness for C8: the pattern `build*.o` on `project/build/out.o` and on
`project/src/out.o`. -/
theorem middle_wildcard_witness :
    filter (js "project/build/out.o") [(js "build*.o")] = true ∧
      filter (js "project/src/out.o") [(js "build*.o")] = false :=
  ⟨(middle_wildcard (js "build") (js ".o") (js "project/build/out.o")
      (by decide) (by decide) (by decide) (by decide)).1 (by decide) (by decide),
    (middle_wildcard (js "build") (js ".o") (js "project/src/out.o")
      (by decide) (by decide) (by decide) (by decide)).2 (by decide) (by decide)⟩

/-! ## Path rewriting: claims C9 and C10 -/

/-- C9: with `keepRoot = false` and an absolute root path `r` that `corePath.normalize`
leaves unchanged (so with or without one trailing separator), whenever `getFiles`
delivers a list for the directory `r`, it holds exactly one descriptor for each reached
regular file that the selection keeps, and the `path` of the descriptor of the file
reached through the entries `s1, ..., sn` is `[s1, ..., sn]`; on a tree of
directories and regular files `getFiles` does deliver a list. -/
theorem getFiles_keepRoot_false_paths (J : Str → Bool) (r : Str) (es : List (Str × Node))
    (options : Option Options) (habs : r.head? = some sep) (hnorm : normalize r = r)
    (hnames : validEntryNames es = true)
    (hk : (effectiveOptions options).keepRoot = false) :
    (∀ fs, getFiles J r (.dir es) options = .ok fs →
        fs = descriptorsBelow J r es (effectiveOptions options) []) ∧
      (regularEntries es = true → ∃ fs, getFiles J r (.dir es) options = .ok fs) := by
  obtain ⟨P, hP, hr⟩ := normalized_absolute_form r habs hnorm
  have hroot := effectiveRoot_keepRoot_false P r (effectiveOptions options) hP hnorm hk hr
  have hrootne : effectiveRoot r (effectiveOptions options) ≠ [] := by
    rw [hroot]; split_ifs <;> simp
  refine ⟨?_, ?_⟩
  · intro fs hfs
    rw [getFiles_ok J r (.dir es) options fs hfs, collected_dir]
    apply rewrite_collectedIn
    intro f hf
    obtain ⟨hne, hplain⟩ := filesIn_plain J es hnames f hf
    rw [List.nil_append]
    apply split_removeFirst _ _ f.1 hrootne _ hne hplain
    rw [walkPath_absolute f.1 P r hP hplain hne hr, absPath_append P f.1 hne, hroot]
  · intro hreg
    exact getFiles_regular J r (.dir es) options (by simpa [Node.regular] using hreg)

/-- Witness for C9: the root `/data/photos` with `a.jpg`, `.DS_Store` and `sub/b.jpg`
yields the paths `['a.jpg']` and `['sub', 'b.jpg']`. -/
theorem getFiles_keepRoot_false_paths_witness :
    getFiles (fun _ => true) (js "/data/photos") (.dir photos) none =
      .ok [⟨10, [(js "a.jpg")], (js "/data/photos/a.jpg")⟩,
        ⟨20, [(js "sub"), (js "b.jpg")], (js "/data/photos/sub/b.jpg")⟩] := by
  have h := getFiles_keepRoot_false_paths (fun _ => true) (js "/data/photos") photos none
    (by decide) (by decide) (by decide) (by decide)
  obtain ⟨fs, hfs⟩ := h.2 (by decide)
  rw [hfs, h.1 fs hfs]
  decide

/-- C10 (evaluation at the failing input): with `keepRoot = true`, an empty `rootFolder`
and the root `/data/photos/` (trailing separator), the paths are `['a.jpg']` and
`['sub', 'b.jpg']`: the root directory `photos` is not kept. -/
theorem getFiles_keepRoot_trailing_separator :
    getFiles (fun _ => true) (js "/data/photos/") (.dir photos)
        (some { keepRoot := true, rootFolder := [] }) =
      .ok [⟨10, [(js "a.jpg")], (js "/data/photos/a.jpg")⟩,
        ⟨20, [(js "sub"), (js "b.jpg")], (js "/data/photos/sub/b.jpg")⟩] := by
  decide

theorem basename_absPath (Q : List Str) (name : Str) (hQ : ∀ t ∈ Q, Plain t)
    (hname : Plain name) : basename (absPath (Q ++ [name])) = name := by
  have hnosep : ∀ t ∈ Q ++ [name], sep ∉ t := by
    intro t ht
    rcases List.mem_append.1 ht with ht | ht
    · exact (hQ t ht).2.1
    · simp at ht; subst ht; exact hname.2.1
  have hsplit : split sep (absPath (Q ++ [name])) = [] :: (Q ++ [name]) := by
    have h1 := split_append_sep sep [] (joinWith sep (Q ++ [name])) (by simp)
    rw [List.nil_append] at h1
    rw [absPath, h1, split_joinWith sep (Q ++ [name]) (by simp) hnosep]
  have hf : ([name] : List Str).filter (fun t => !t.isEmpty) = [name] :=
    plain_filter [name] (by simpa using hname)
  unfold basename
  rw [hsplit]
  simp only [List.filter_cons, List.isEmpty_nil, Bool.not_true, Bool.false_eq_true, if_false,
    List.filter_append, hf, List.getLast?_concat, Option.getD_some]

/-- With `keepRoot = true`, an empty `rootFolder` and an absolute normalized root path
without trailing separator, the root directory is kept: the descriptor of the file
reached through the entries `s1, ..., sn` has the path `[basename r, s1, ..., sn]`. -/
theorem getFiles_keepRoot_true_paths (J : Str → Bool) (r : Str) (es : List (Str × Node))
    (options : Option Options) (habs : r.head? = some sep) (hnorm : normalize r = r)
    (hlast : r.getLast? ≠ some sep) (hnames : validEntryNames es = true)
    (hk : (effectiveOptions options).keepRoot = true)
    (hf : (effectiveOptions options).rootFolder = []) :
    (∀ fs, getFiles J r (.dir es) options = .ok fs →
        fs = descriptorsBelow J r es (effectiveOptions options) [basename r]) ∧
      (regularEntries es = true → ∃ fs, getFiles J r (.dir es) options = .ok fs) := by
  obtain ⟨P, hP, hr⟩ := normalized_absolute_form r habs hnorm
  have hr' : r = absPath P := by
    rcases hr with h | ⟨_, h⟩
    · exact h
    · exact absurd (by rw [h, List.getLast?_concat]) hlast
  obtain ⟨Q, name, hQn⟩ : ∃ Q name, P = Q ++ [name] := by
    rcases List.eq_nil_or_concat P with h0 | ⟨Q, s, h1⟩
    · subst h0
      exact absurd (by rw [hr']; rfl) hlast
    · exact ⟨Q, s, by simpa using h1⟩
  subst hQn
  have hQ : ∀ t ∈ Q, Plain t := fun t ht => hP t (by simp [ht])
  have hname : Plain name := hP name (by simp)
  have hroot := effectiveRoot_keepRoot_true Q name (effectiveOptions options) hQ hname hk hf
  rw [← hr'] at hroot
  have hrootne : effectiveRoot r (effectiveOptions options) ≠ [] := by
    rw [hroot]; split_ifs <;> simp
  have hbase : basename r = name := by rw [hr']; exact basename_absPath Q name hQ hname
  refine ⟨?_, ?_⟩
  · intro fs hfs
    rw [getFiles_ok J r (.dir es) options fs hfs, collected_dir]
    apply rewrite_collectedIn
    intro f hf
    obtain ⟨hne, hplain⟩ := filesIn_plain J es hnames f hf
    have hpl : ∀ s ∈ [basename r] ++ f.1, Plain s := by
      intro s hs
      rcases List.mem_append.1 hs with hs | hs
      · simp at hs; subst hs; rw [hbase]; exact hname
      · exact hplain s hs
    apply split_removeFirst _ _ _ hrootne _ (by simp) hpl
    rw [walkPath_absolute f.1 (Q ++ [name]) r hP hplain hne (Or.inl hr'), hroot, hbase,
      List.append_assoc, absPath_append Q ([name] ++ f.1) (by simp)]
  · intro hreg
    exact getFiles_regular J r (.dir es) options (by simpa [Node.regular] using hreg)

/-! ## Selection: claims C1, C3, C4, C5 -/

/-- C1 (evaluation at the failing input): in `/data/photos` with the pattern `*.jpg` and
`reverse = false`, `shouldInclude` is true for `a.jpg` and `sub/b.jpg`, and `getFiles`
returns no descriptor; with the pattern `*.txt`, `shouldInclude` is false for both and
`getFiles` returns both: a file is returned exactly when `shouldInclude` is false. -/
theorem getFiles_returns_rejected_files :
    shouldInclude (js "/data/photos/a.jpg") [(js "*.jpg")] false = true ∧
      shouldInclude (js "/data/photos/sub/b.jpg") [(js "*.jpg")] false = true ∧
      getFiles (fun _ => true) (js "/data/photos") (.dir photos)
        (some { files := some [(js "*.jpg")], reverse := some false }) = .ok [] ∧
      shouldInclude (js "/data/photos/a.jpg") [(js "*.txt")] false = false ∧
      shouldInclude (js "/data/photos/sub/b.jpg") [(js "*.txt")] false = false ∧
      getFiles (fun _ => true) (js "/data/photos") (.dir photos)
        (some { files := some [(js "*.txt")], reverse := some false }) =
        .ok [⟨10, [(js "a.jpg")], (js "/data/photos/a.jpg")⟩,
          ⟨20, [(js "sub"), (js "b.jpg")], (js "/data/photos/sub/b.jpg")⟩] := by
  decide

/-- C3 (evaluation at the failing input): with `files = []` and `reverse = false`, given
explicitly or by default, `getFiles` returns both regular files of `/data/photos`, not
an empty list. -/
theorem getFiles_no_patterns_returns_all :
    getFiles (fun _ => true) (js "/data/photos") (.dir photos)
        (some { files := some [], reverse := some false }) =
        .ok [⟨10, [(js "a.jpg")], (js "/data/photos/a.jpg")⟩,
          ⟨20, [(js "sub"), (js "b.jpg")], (js "/data/photos/sub/b.jpg")⟩] ∧
      getFiles (fun _ => true) (js "/data/photos") (.dir photos) none =
        .ok [⟨10, [(js "a.jpg")], (js "/data/photos/a.jpg")⟩,
          ⟨20, [(js "sub"), (js "b.jpg")], (js "/data/photos/sub/b.jpg")⟩] := by
  decide

/-- C4 (evaluation at the failing input): with `files = []` and `reverse = true`,
`getFiles` returns an empty list for `/data/photos`, although the directory has the two
regular, non-hidden files `a.jpg` and `sub/b.jpg`. -/
theorem getFiles_reverse_no_patterns_returns_none :
    getFiles (fun _ => true) (js "/data/photos") (.dir photos)
        (some { files := some [], reverse := some true }) = .ok [] ∧
      filesIn (fun _ => true) photos =
        [([(js "a.jpg")], some 10), ([(js "sub"), (js "b.jpg")], some 20)] := by
  decide

/-- C5 (evaluation at the failing input): in a directory with the regular file `a.jpg`
and an entry that is neither a directory nor a regular file, every `fs.stat` and
`fs.readdir` succeeds, and the callback of `getFiles` is never called, with
`reverse = true` as with `reverse = false`: no file is returned in either mode. -/
theorem getFiles_reverse_modes_never_call_back :
    getFiles (fun _ => true) (js "/data") (.dir withPipe)
        (some { files := some [(js "*.jpg")], reverse := some true }) = .pending ∧
      getFiles (fun _ => true) (js "/data") (.dir withPipe)
        (some { files := some [(js "*.jpg")], reverse := some false }) = .pending ∧
      filesIn (fun _ => true) withPipe = [([(js "a.jpg")], some 10)] := by
  decide

/-- Reverse mode is the complement of normal mode for `shouldInclude`. -/
theorem shouldInclude_reverse (path : Str) (files : List Str) :
    shouldInclude path files true = !shouldInclude path files false := by
  simp [shouldInclude]

/-- On a tree of directories and regular files, `getFiles` returns with `reverse = false`
the reached files that `filter` rejects and with `reverse = true` those that `filter`
accepts: the two results split the reached regular files. -/
theorem getFiles_reverse_partition (J : Str → Bool) (path : Str) (root : Node)
    (options : Options) (files : List Str) (h : root.regular = true) :
    getFiles J path root (some { options with files := some files, reverse := some false }) =
        .ok (((allRaw J path root).filter (fun d => !filter d.path files)).map
          (rewrite (effectiveRoot path options))) ∧
      getFiles J path root (some { options with files := some files, reverse := some true }) =
        .ok (((allRaw J path root).filter (fun d => filter d.path files)).map
          (rewrite (effectiveRoot path options))) := by
  have key : ∀ rev : Bool,
      getFiles J path root (some { options with files := some files, reverse := some rev }) =
        .ok (((allRaw J path root).filter
          (fun d => !shouldInclude d.path files rev)).map
          (rewrite (effectiveRoot path options))) := by
    intro rev
    obtain ⟨fs, hfs⟩ := getFiles_regular J path root
      (some { options with files := some files, reverse := some rev }) h
    rw [hfs, getFiles_ok J path root _ fs hfs]
    have hroot : effectiveRoot path
        (effectiveOptions (some { options with files := some files, reverse := some rev })) =
        effectiveRoot path options := rfl
    rw [hroot]
    congr 2
    simp only [collected, allRaw, effectiveOptions, Option.getD_some, List.filter_filterMap]
    apply List.filterMap_congr
    intro f _
    cases f.2 with
    | none => simp
    | some size =>
      by_cases hs : shouldInclude (walkPath path f.1) files rev = true <;>
        simp [hs, Option.filter]
  refine ⟨?_, ?_⟩
  · rw [key false]; simp [shouldInclude]
  · rw [key true]; simp [shouldInclude]

/-- The loop body of `filter` in terms of its three tests. -/
theorem filter_cons_rules (path target : Str) (rest : List Str) :
    filter path (target :: rest) =
      if extensionRule path target then true
      else if nameRule path target then true
      else if includes target [star] then wildcardRule path target
      else filter path rest := by
  simp only [filter, extensionRule, nameRule, wildcardRule]

theorem includes_star_iff (t : Str) : includes t [star] = true ↔ star ∈ t := by
  rw [includes_iff]
  constructor
  · rintro ⟨a, b, h⟩
    rw [← h]; simp
  · intro h
    obtain ⟨a, b, hab⟩ := List.append_of_mem h
    exact ⟨a, b, by simp [hab]⟩

theorem startsWith_star_imp_mem (t : Str) (h : startsWith t [star] = true) : star ∈ t := by
  obtain ⟨b, hb⟩ := (startsWith_iff t [star]).1 h
  rw [← hb]; simp

/-- A path that does not end with the separator is its basename, or ends with a separator
followed by its basename. -/
theorem basename_decomp (p : Str) (h : p.getLast? ≠ some sep) :
    p = basename p ∨ ∃ q, p = q ++ sep :: basename p := by
  obtain ⟨l, hl⟩ : ∃ l, (split sep p).getLast? = some l := by
    cases hs : (split sep p).getLast? with
    | none => exact absurd (List.getLast?_eq_none_iff.1 hs) (split_ne_nil sep p)
    | some l => exact ⟨l, rfl⟩
  obtain ⟨ys, hys⟩ := List.getLast?_eq_some_iff.1 hl
  have hj := joinWith_split sep p
  rw [hys] at hj
  by_cases hy : ys = []
  · subst hy
    left
    simp only [List.nil_append, joinWith] at hj
    subst hj
    exact (basename_of_not_mem l (not_mem_of_mem_split sep l l (by simp [hys]))).symm
  · rw [joinWith_append sep ys [l] hy (by simp)] at hj
    simp only [joinWith] at hj
    have hle : l ≠ [] := by
      intro h0
      subst h0
      apply h
      rw [← hj]
      simp
    have hb : basename p = l := by
      unfold basename
      have hf : List.filter (fun s => !s.isEmpty) [l] = [l] := by
        cases l with
        | nil => exact absurd rfl hle
        | cons a b => rfl
      rw [hys, List.filter_append, hf, List.getLast?_concat]
      rfl
    right
    exact ⟨joinWith sep ys, by rw [hb, hj]⟩

/-- A separator-free suffix of a path that does not end with the separator is a suffix of
its basename. -/
theorem suffix_basename_of_suffix (p e : Str) (h : p.getLast? ≠ some sep) (he : e <:+ p)
    (hsep : sep ∉ e) : e <:+ basename p := by
  rcases basename_decomp p h with hp | ⟨q, hq⟩
  · rw [← hp]; exact he
  · rcases List.suffix_or_suffix_of_suffix he (basename_suffix p h) with h1 | h1
    · exact h1
    · -- `e` is longer than the basename: it would contain the separator before it
      obtain ⟨x, hx⟩ := h1
      obtain ⟨y, hy⟩ := he
      by_cases hx0 : x = []
      · subst hx0
        simp at hx
        rw [← hx]
      · exfalso
        have h2 : y ++ x ++ basename p = (q ++ [sep]) ++ basename p := by
          rw [List.append_assoc, hx, hy]
          simpa using hq
        have h3 : y ++ x = q ++ [sep] := List.append_cancel_right h2
        have h4 : x.getLast? = some sep := by
          have : (y ++ x).getLast? = some sep := by rw [h3, List.getLast?_concat]
          rwa [List.getLast?_append_of_ne_nil _ hx0] at this
        apply hsep
        rw [← hx]
        exact List.mem_append_left _ (List.mem_of_getLast?_eq_some h4)

/-- The extension of a path whose basename is `pre ++ '.' ++ a`, `a` free of `'.'`. -/
theorem extname_of_basename (p pre a : Str) (hb : basename p = pre ++ dot :: a)
    (ha : dot ∉ a) (hpre : pre ≠ []) (hdd : basename p ≠ [dot, dot]) :
    extname p = dot :: a := by
  have h1 : afterLast dot (basename p) = a := by
    rw [hb]; exact afterLast_of_not_mem dot a pre ha
  have h2 : (basename p).contains dot = true := by
    rw [hb]; simp
  have h3 : (basename p).length ≠ a.length + 1 := by
    rw [hb]
    have : 0 < pre.length := List.length_pos.2 hpre
    simp only [List.length_append, List.length_cons]
    omega
  unfold extname
  simp only [h1, h2, Bool.not_true, Bool.false_eq_true, if_false, h3, hdd]

/-! ## The rules of the pattern matcher: claims C17, C18, C19, C20 -/

/-- C17 (counterexample): the pattern `*` starts with `'*'` and its extension rule
accepts `a.txt`, whose extension `.txt` is not the (empty) extension of the pattern; and
the rule of `*.txt` rejects `a.txt/`, whose extension is `.txt` too. -/
theorem extension_rule_counterexample :
    startsWith (js "*") [star] = true ∧
      extensionRule (js "a.txt") (js "*") = true ∧
      extname (js "a.txt") ≠ extname (js "*") ∧
      startsWith (js "*.txt") [star] = true ∧
      extensionRule (js "a.txt/") (js "*.txt") = false ∧
      extname (js "a.txt/") = extname (js "*.txt") := by
  decide

/-- C17 (amended): for a pattern `t` that starts with `'*'`, the extension rule (the first
test of `filter`, see `filter_cons_rules`) accepts a path exactly when the path ends with
the extension of `t`.  It accepts every path that does not end with the separator and
has the extension of `t`; and an accepted path has the extension of `t` when that
extension is not empty and the basename of the path is neither that extension nor `..`. -/
theorem extension_rule (path t : Str) (ht : startsWith t [star] = true) :
    extensionRule path t = endsWith path (extname t) ∧
      (path.getLast? ≠ some sep → extname path = extname t →
        extensionRule path t = true) ∧
      (extensionRule path t = true → extname t ≠ [] → basename path ≠ extname t →
        basename path ≠ [dot, dot] → extname path = extname t) := by
  have h1 : extensionRule path t = endsWith path (extname t) := by
    simp [extensionRule, ht]
  refine ⟨h1, ?_, ?_⟩
  · intro hlast heq
    rw [h1, ← heq]
    exact (endsWith_iff _ _).2 ((extname_suffix_basename path).trans (basename_suffix path hlast))
  · intro hacc hne hb hdd
    rw [h1] at hacc
    have hsuf : extname t <:+ path := (endsWith_iff _ _).1 hacc
    rcases extname_cases t with h0 | ⟨a, ha, hdot, hsep⟩
    · exact absurd h0 hne
    · rw [ha] at hsuf hb ⊢
      have hsd : sep ≠ dot := by decide
      have hse : sep ∉ dot :: a := by simp [hsep, hsd]
      have hlast : path.getLast? ≠ some sep := by
        intro hl
        obtain ⟨y, hy⟩ := hsuf
        rw [← hy, List.getLast?_append_of_ne_nil _ (by simp)] at hl
        exact hse (List.mem_of_getLast?_eq_some hl)
      obtain ⟨pre, hpre⟩ := suffix_basename_of_suffix path (dot :: a) hlast hsuf hse
      have hpre0 : pre ≠ [] := by
        intro h0
        subst h0
        exact hb (by simpa using hpre.symm)
      exact extname_of_basename path pre a hpre.symm hdot hpre0 hdd

/-- Witness for C17: the pattern `*.jpg` and the path `/data/photos/a.jpg`. -/
theorem extension_rule_witness :
    extensionRule (js "/data/photos/a.jpg") (js "*.jpg") = true ∧
      extname (js "/data/photos/a.jpg") = extname (js "*.jpg") :=
  ⟨(extension_rule (js "/data/photos/a.jpg") (js "*.jpg") (by decide)).2.1
      (by decide) (by decide),
    (extension_rule (js "/data/photos/a.jpg") (js "*.jpg") (by decide)).2.2
      (by decide) (by decide) (by decide) (by decide)⟩

/-- C18 (counterexample): the pattern `/data/./photos` has no `'*'`, is not the basename,
the full path or a segment of `/data/photos/a.jpg` and is not a prefix of that (already
normalized) path, and yet `filter` accepts: the normalized pattern is a prefix of the
path.  And the pattern `a/b` is a prefix of the normalized form of `a//b`, yet `filter`
rejects. -/
theorem filter_plain_pattern_counterexample :
    star ∉ (js "/data/./photos") ∧
      basename (js "/data/photos/a.jpg") ≠ (js "/data/./photos") ∧
      (js "/data/photos/a.jpg") ≠ (js "/data/./photos") ∧
      (split sep (js "/data/photos/a.jpg")).contains (js "/data/./photos") = false ∧
      startsWith (normalize (js "/data/photos/a.jpg")) (js "/data/./photos") = false ∧
      filter (js "/data/photos/a.jpg") [(js "/data/./photos")] = true ∧
      star ∉ (js "a/b") ∧
      startsWith (normalize (js "a//b")) (js "a/b") = true ∧
      filter (js "a//b") [(js "a/b")] = false := by
  decide

/-- C18 (amended): for a single pattern `t` without `'*'`, `filter(path, [t])` is true
exactly when `t` is the basename of the path, or the full path, or one of its segments,
or the normalized pattern `corePath.normalize(t)` is a prefix of the path. -/
theorem filter_plain_pattern (path t : Str) (ht : star ∉ t) :
    filter path [t] = true ↔
      basename path = t ∨ path = t ∨ t ∈ split sep path ∨ normalize t <+: path := by
  have h1 : startsWith t [star] = false := by
    cases h : startsWith t [star] with
    | false => rfl
    | true => exact absurd (startsWith_star_imp_mem t h) ht
  have h2 : includes t [star] = false := by
    cases h : includes t [star] with
    | false => rfl
    | true => exact absurd ((includes_star_iff t).1 h) ht
  rw [filter_singleton, h1, h2]
  simp [startsWith, or_assoc]

/-- Witness for C18: the pattern `sub` and the path `/data/photos/sub/b.jpg`. -/
theorem filter_plain_pattern_witness :
    filter (js "/data/photos/sub/b.jpg") [(js "sub")] = true :=
  (filter_plain_pattern (js "/data/photos/sub/b.jpg") (js "sub") (by decide)).2
    (Or.inr (Or.inr (Or.inl (by decide))))

/-- C19: if `dir` is a segment of the path then every element of `dir.split(sep)` is a
substring of the path; hence, for a pattern that reaches the wildcard rule (its first two
tests fail and it contains `'*'`), `filter` returns `path.endsWith(ext)` and every
element of `dir.split(sep)` is a substring of the path, `dir` and `ext` being the first
two parts of `target.split('*')`. -/
theorem wildcard_rule_substring :
    (∀ path dir : Str, (split sep path).contains dir = true →
        (split sep dir).all (fun element => includes path element) = true) ∧
      (∀ (path target : Str) (rest : List Str), extensionRule path target = false →
        nameRule path target = false → includes target [star] = true →
        filter path (target :: rest) =
          (endsWith path (((split star target).get? 1).getD []) &&
            (split sep (((split star target).get? 0).getD [])).all
              (fun element => includes path element))) := by
  have key : ∀ path dir : Str, (split sep path).contains dir = true →
      (split sep dir).all (fun element => includes path element) = true := by
    intro path dir h
    have hmem : dir ∈ split sep path := by simpa using h
    rw [split_of_not_mem sep dir (not_mem_of_mem_split sep path dir hmem)]
    simp [(includes_iff path dir).2 (infix_of_mem_split sep path dir hmem)]
  refine ⟨key, ?_⟩
  intro path target rest h1 h2 h3
  rw [filter_cons_rules, h1, h2, h3]
  simp only [Bool.false_eq_true, if_false, if_true, wildcardRule]
  cases hc : (split sep path).contains (((split star target).get? 0).getD []) with
  | false => rw [Bool.false_or, Bool.and_comm]
  | true => rw [key path _ hc, Bool.true_or, Bool.true_and, Bool.and_true]

/-- Witness for C19: `build` is not a segment of `project/mybuild2/out.o`, only a
substring, and the pattern `build*.o` matches. -/
theorem wildcard_rule_substring_witness :
    (split sep (js "build")).all
        (fun element => includes (js "project/build/out.o") element) = true ∧
      (split sep (js "project/mybuild2/out.o")).contains (js "build") = false ∧
      filter (js "project/mybuild2/out.o") [(js "build*.o")] = true :=
  ⟨wildcard_rule_substring.1 (js "project/build/out.o") (js "build") (by decide),
    by decide,
    (wildcard_rule_substring.2 (js "project/mybuild2/out.o") (js "build*.o") []
      (by decide) (by decide) (by decide)).trans (by decide)⟩

/-- C20: the result of `filter` depends only on the patterns up to the first one that
contains `'*'`: such a pattern decides alone, and a pattern without `'*'` is combined by
"or" with the patterns after it. -/
theorem filter_up_to_first_wildcard (path t : Str) (rest : List Str) :
    (star ∈ t → filter path (t :: rest) = filter path [t]) ∧
      (star ∉ t → filter path (t :: rest) = (filter path [t] || filter path rest)) := by
  refine ⟨?_, ?_⟩
  · intro h
    have hs : includes t [star] = true := (includes_star_iff t).2 h
    simp only [filter, hs, if_true]
  · intro h
    have hs : includes t [star] = false := by
      cases h' : includes t [star] with
      | false => rfl
      | true => exact absurd ((includes_star_iff t).1 h') h
    simp only [filter, hs]
    split_ifs <;> simp_all

/-- Witness for C20: after `*.jpg` the pattern `bar.txt` is not tried; after `foo` it
is. -/
theorem filter_up_to_first_wildcard_witness :
    filter (js "bar.txt") [(js "*.jpg"), (js "bar.txt")] =
        filter (js "bar.txt") [(js "*.jpg")] ∧
      filter (js "bar.txt") [(js "foo"), (js "bar.txt")] =
        (filter (js "bar.txt") [(js "foo")] || filter (js "bar.txt") [(js "bar.txt")]) :=
  ⟨(filter_up_to_first_wildcard (js "bar.txt") (js "*.jpg") [(js "bar.txt")]).1
      (by decide),
    (filter_up_to_first_wildcard (js "bar.txt") (js "foo") [(js "bar.txt")]).2
      (by decide)⟩

/-! ## Lemmas on errors and on walks that never complete -/

theorem parallel_cons_error (t : Outcome Result) (ts : List (Outcome Result)) :
    parallel (t :: ts) = .error ↔ t = .error ∨ parallel ts = .error := by
  simp only [parallel]
  cases t <;> cases hp : parallel ts <;> simp

theorem parallel_cons_pending (t : Outcome Result) (ts : List (Outcome Result)) :
    parallel (t :: ts) = .pending ↔
      (t ≠ .error ∧ parallel ts ≠ .error) ∧ (t = .pending ∨ parallel ts = .pending) := by
  simp only [parallel]
  cases t <;> cases hp : parallel ts <;> simp

theorem exists_mem_one {α : Type} (P : α → Prop) (a : α) : (∃ v ∈ [a], P v) ↔ P a := by
  constructor
  · rintro ⟨v, hv, h⟩
    rw [List.mem_singleton] at hv
    rw [← hv]; exact h
  · intro h
    exact ⟨a, List.mem_singleton.2 rfl, h⟩

theorem exists_mem_cons_iff {α : Type} (P : α → Prop) (a : α) (l : List α) :
    (∃ v ∈ a :: l, P v) ↔ P a ∨ ∃ v ∈ l, P v := by
  constructor
  · rintro ⟨v, hv, h⟩
    rcases List.mem_cons.1 hv with hv | hv
    · left; rw [← hv]; exact h
    · right; exact ⟨v, hv, h⟩
  · rintro (h | ⟨v, hv, h⟩)
    · exact ⟨a, List.mem_cons_self _ _, h⟩
    · exact ⟨v, List.mem_cons_of_mem _ hv, h⟩

theorem exists_mem_append_iff {α : Type} (P : α → Prop) (l₁ l₂ : List α) :
    (∃ v ∈ l₁ ++ l₂, P v) ↔ (∃ v ∈ l₁, P v) ∨ ∃ v ∈ l₂, P v := by
  constructor
  · rintro ⟨v, hv, h⟩
    rcases List.mem_append.1 hv with hv | hv
    · left; exact ⟨v, hv, h⟩
    · right; exact ⟨v, hv, h⟩
  · rintro (⟨v, hv, h⟩ | ⟨v, hv, h⟩)
    · exact ⟨v, List.mem_append_left _ hv, h⟩
    · exact ⟨v, List.mem_append_right _ hv, h⟩

theorem exists_mem_nil_iff {α : Type} (P : α → Prop) : (∃ v ∈ ([] : List α), P v) ↔ False := by
  constructor
  · rintro ⟨v, hv, _⟩
    exact absurd hv (List.not_mem_nil v)
  · exact False.elim

mutual
/-- The walk ends with an error exactly when a call fails for a visited node. -/
theorem traversePath_error_iff (J : Str → Bool) (options : Options) :
    ∀ (p : Str) (n : Node), traversePath J options p n = .error ↔
      ∃ v ∈ visited J p n, callFails options v.1 v.2 = true
  | p, .statFails => by
    rw [visited, exists_mem_one]; simp [traversePath, callFails]
  | p, .unreadableDir => by
    rw [visited, exists_mem_one]; simp [traversePath, callFails]
  | p, .other => by
    rw [visited, exists_mem_one]; simp [traversePath, callFails]
  | p, .file none => by
    rw [visited, exists_mem_one]
    simp only [traversePath, callFails, getFileInfo]
    cases shouldInclude p (options.files.getD []) (options.reverse.getD false) <;> simp
  | p, .file (some k) => by
    rw [visited, exists_mem_one]
    simp only [traversePath, callFails, getFileInfo]
    cases shouldInclude p (options.files.getD []) (options.reverse.getD false) <;> simp
  | p, .dir es => by
    have ih := traverseEntries_error_iff J options p es
    rw [visited, exists_mem_cons_iff, ← ih]
    simp only [traversePath, callFails, Bool.false_eq_true, false_or]
    cases parallel (traverseEntries J options p es) <;> simp
/-- The tasks of a directory end with an error exactly when a call fails below it. -/
theorem traverseEntries_error_iff (J : Str → Bool) (options : Options) :
    ∀ (p : Str) (es : List (Str × Node)),
      parallel (traverseEntries J options p es) = .error ↔
        ∃ v ∈ visitedIn J p es, callFails options v.1 v.2 = true
  | p, [] => by
    rw [visitedIn, exists_mem_nil_iff]; simp [traverseEntries, parallel]
  | p, (e, n) :: rest => by
    have ih1 := traversePath_error_iff J options (join p e) n
    have ih2 := traverseEntries_error_iff J options p rest
    rw [visitedIn, exists_mem_append_iff, ← ih2]
    simp only [traverseEntries]
    cases hv : (notHidden e && J e) with
    | true =>
      simp only [if_true]
      rw [parallel_cons_error, ih1]
    | false =>
      simp only [Bool.false_eq_true, if_false]
      rw [exists_mem_nil_iff, false_or]
end

theorem callFails_dir (options : Options) (p : Str) (es : List (Str × Node)) :
    callFails options p (.dir es) = false := rfl

theorem isOther_dir (es : List (Str × Node)) : (Node.dir es).isOther = false := rfl

theorem pending_logic (F₁ F₂ O₁ O₂ : Prop) :
    ((¬ F₁ ∧ ¬ F₂) ∧ ((¬ F₁ ∧ O₁) ∨ (¬ F₂ ∧ O₂))) ↔ (¬ (F₁ ∨ F₂) ∧ (O₁ ∨ O₂)) := by
  tauto

mutual
/-- The callback of the walk is never called exactly when no call fails and the walk
visits a node that is neither a directory nor a regular file. -/
theorem traversePath_pending_iff (J : Str → Bool) (options : Options) :
    ∀ (p : Str) (n : Node), traversePath J options p n = .pending ↔
      (¬ ∃ v ∈ visited J p n, callFails options v.1 v.2 = true) ∧
        ∃ v ∈ visited J p n, v.2.isOther = true
  | p, .statFails => by
    rw [visited, exists_mem_one, exists_mem_one]; simp [traversePath, callFails]
  | p, .unreadableDir => by
    rw [visited, exists_mem_one, exists_mem_one]; simp [traversePath, callFails]
  | p, .other => by
    rw [visited, exists_mem_one, exists_mem_one]
    simp [traversePath, callFails, Node.isOther]
  | p, .file size => by
    rw [visited, exists_mem_one, exists_mem_one]
    simp only [traversePath, getFileInfo, Node.isOther, Bool.false_eq_true, and_false,
      iff_false]
    cases size <;>
      cases shouldInclude p (options.files.getD []) (options.reverse.getD false) <;> simp
  | p, .dir es => by
    have ih := traverseEntries_pending_iff J options p es
    rw [visited, exists_mem_cons_iff, exists_mem_cons_iff]
    simp only [callFails_dir, isOther_dir, Bool.false_eq_true, false_or]
    rw [← ih]
    simp only [traversePath]
    cases parallel (traverseEntries J options p es) <;> simp
/-- The tasks of a directory: the same for the nodes visited below it. -/
theorem traverseEntries_pending_iff (J : Str → Bool) (options : Options) :
    ∀ (p : Str) (es : List (Str × Node)),
      parallel (traverseEntries J options p es) = .pending ↔
        (¬ ∃ v ∈ visitedIn J p es, callFails options v.1 v.2 = true) ∧
          ∃ v ∈ visitedIn J p es, v.2.isOther = true
  | p, [] => by
    rw [visitedIn, exists_mem_nil_iff, exists_mem_nil_iff]; simp [traverseEntries, parallel]
  | p, (e, n) :: rest => by
    have ih1 := traversePath_pending_iff J options (join p e) n
    have ih2 := traverseEntries_pending_iff J options p rest
    have ie1 := traversePath_error_iff J options (join p e) n
    have ie2 := traverseEntries_error_iff J options p rest
    rw [visitedIn, exists_mem_append_iff, exists_mem_append_iff]
    simp only [traverseEntries]
    cases hv : (notHidden e && J e) with
    | true =>
      simp only [if_true]
      rw [parallel_cons_pending, ih1, ih2, Ne, Ne, ie1, ie2]
      exact pending_logic _ _ _ _
    | false =>
      simp only [Bool.false_eq_true, if_false]
      rw [exists_mem_nil_iff, exists_mem_nil_iff, false_or, false_or]
      exact ih2
end

theorem getFiles_error_iff_traverse (J : Str → Bool) (path : Str) (root : Node)
    (options : Option Options) :
    getFiles J path root options = .error ↔
      traversePath J (effectiveOptions options) path root = .error := by
  rw [getFiles_eq]
  cases traversePath J (effectiveOptions options) path root <;> simp

theorem getFiles_pending_iff_traverse (J : Str → Bool) (path : Str) (root : Node)
    (options : Option Options) :
    getFiles J path root options = .pending ↔
      traversePath J (effectiveOptions options) path root = .pending := by
  rw [getFiles_eq]
  cases traversePath J (effectiveOptions options) path root <;> simp

/-- The callback of `getFiles` is never called exactly when no call fails and the walk
visits an entry that is neither a directory nor a regular file. -/
theorem getFiles_pending_iff (J : Str → Bool) (path : Str) (root : Node)
    (options : Option Options) :
    getFiles J path root options = .pending ↔
      (¬ ∃ v ∈ visited J path root, callFails (effectiveOptions options) v.1 v.2 = true) ∧
        ∃ v ∈ visited J path root, v.2.isOther = true := by
  rw [getFiles_pending_iff_traverse, traversePath_pending_iff]

/-! ## Lemmas on the files the walk reaches -/

mutual
/-- The reached files are among the files of the tree, in the same order. -/
theorem filesUnder_sublist (J : Str → Bool) :
    ∀ n : Node, (filesUnder J n).Sublist (allFiles n)
  | .statFails => by simp [filesUnder, allFiles]
  | .unreadableDir => by simp [filesUnder, allFiles]
  | .other => by simp [filesUnder, allFiles]
  | .file size => by simp [filesUnder, allFiles]
  | .dir es => by
    simp only [filesUnder, allFiles]
    exact filesIn_sublist J es
/-- The files reached below the entries of a directory are among all files below them. -/
theorem filesIn_sublist (J : Str → Bool) :
    ∀ es : List (Str × Node), (filesIn J es).Sublist (allFilesIn es)
  | [] => by simp [filesIn, allFilesIn]
  | (e, n) :: rest => by
    simp only [filesIn, allFilesIn]
    apply List.Sublist.append _ (filesIn_sublist J rest)
    split_ifs
    · exact (filesUnder_sublist J n).map _
    · exact List.nil_sublist _
end

mutual
/-- No entry name that leads to a reached file is hidden or junk. -/
theorem filesUnder_visible (J : Str → Bool) :
    ∀ n : Node, ∀ f ∈ filesUnder J n, ∀ s ∈ f.1, notHidden s = true ∧ J s = true
  | .statFails, f, hf => by simp [filesUnder] at hf
  | .unreadableDir, f, hf => by simp [filesUnder] at hf
  | .other, f, hf => by simp [filesUnder] at hf
  | .file size, f, hf => by
    simp [filesUnder] at hf
    subst hf
    simp
  | .dir es, f, hf => by
    simp only [filesUnder] at hf
    exact filesIn_visible J es f hf
/-- The same below the entries of a directory. -/
theorem filesIn_visible (J : Str → Bool) :
    ∀ es : List (Str × Node), ∀ f ∈ filesIn J es, ∀ s ∈ f.1,
      notHidden s = true ∧ J s = true
  | [], f, hf => by simp [filesIn] at hf
  | (e, n) :: rest, f, hf => by
    simp only [filesIn, List.mem_append] at hf
    rcases hf with hf | hf
    · by_cases hvis : (notHidden e && J e) = true
      · simp only [hvis, if_true, List.mem_map] at hf
        obtain ⟨g, hg, hgf⟩ := hf
        subst hgf
        intro s hs
        rcases List.mem_cons.1 hs with hs | hs
        · subst hs
          simpa using hvis
        · exact filesUnder_visible J n g hg s hs
      · simp [hvis] at hf
    · exact filesIn_visible J rest f hf
end

theorem map_filterMap_eq_map_filter {α β γ : Type} (g : α → Option β) (h : β → γ)
    (k : α → γ) (l : List α) (hk : ∀ x y, g x = some y → h y = k x) :
    (l.filterMap g).map h = (l.filter (fun x => (g x).isSome)).map k := by
  induction l with
  | nil => rfl
  | cons a rest ih =>
    cases hg : g a with
    | none => simp [List.filterMap_cons, hg, ih]
    | some y => simp [List.filterMap_cons, hg, ih, hk a y hg]

theorem notHidden_iff (s : Str) : notHidden s = true ↔ s.head? ≠ some dot := by
  simp [notHidden]

/-! ## Errors, other entry types and hidden entries: claims C13, C14, C15 -/

/-- C13: the callback of `getFiles` receives an error (and no file list) exactly when
`fs.stat` or `fs.readdir` fails for the root or for an entry the walk visits, or the size
`fs.stat` fails for a file selected for output. -/
theorem getFiles_error_iff (J : Str → Bool) (path : Str) (root : Node)
    (options : Option Options) :
    getFiles J path root options = .error ↔
      ∃ v ∈ visited J path root, callFails (effectiveOptions options) v.1 v.2 = true := by
  rw [getFiles_error_iff_traverse, traversePath_error_iff]

/-- Witness for C13: when `fs.stat` fails for `sub/b.jpg`, the call yields the error,
although `a.jpg` was collected. -/
theorem getFiles_error_iff_witness :
    getFiles (fun _ => true) (js "/data/photos") (.dir photosFailing) none = .error :=
  (getFiles_error_iff (fun _ => true) (js "/data/photos") (.dir photosFailing) none).2
    ⟨((js "/data/photos/sub/b.jpg"), .statFails), by
      have h1 : notHidden (js "sub") = true := by decide
      have h2 : notHidden (js "b.jpg") = true := by decide
      have hj : join (join (js "/data/photos") (js "sub")) (js "b.jpg") =
          (js "/data/photos/sub/b.jpg") := by decide
      simp only [visited, visitedIn, photosFailing, h1, h2, hj, Bool.and_true, if_true]
      refine List.mem_cons_of_mem _ ?_
      refine List.mem_append_right _ (List.mem_append_right _ (List.mem_append_left _ ?_))
      refine List.mem_cons_of_mem _ (List.mem_append_left _ ?_)
      exact List.mem_singleton.2 rfl, rfl⟩

/-- C14 (evaluation at the failing input): for a directory with the regular file `a.jpg`
and an entry that is neither a directory nor a regular file, and for a root that is such
an entry, the callback of `getFiles` is never called, although no call fails. -/
theorem getFiles_other_entry_never_calls_back :
    getFiles (fun _ => true) (js "/data") (.dir withPipe) none = .pending ∧
      getFiles (fun _ => true) (js "/data/pipe") .other none = .pending := by
  decide

/-- C15: every descriptor `getFiles` returns belongs to a regular file of the tree none
of whose entry names below the root (its own name and the names of the directories
between the root and the file) starts with `'.'`: the returned descriptors are, in
order, those of a sublist `sel` of the files of the tree, for any patterns and
`reverse`. -/
theorem getFiles_no_hidden (J : Str → Bool) (path : Str) (root : Node)
    (options : Option Options) (fs : List FileDescriptor)
    (h : getFiles J path root options = .ok fs) :
    ∃ sel : List (List Str × Option Nat), sel.Sublist (allFiles root) ∧
      (∀ f ∈ sel, ∀ s ∈ f.1, s.head? ≠ some dot) ∧
      fs.map (fun d => (d.getStream, some d.length)) =
        sel.map (fun f => (walkPath path f.1, f.2)) := by
  have hfs := getFiles_ok J path root options fs h
  refine ⟨(filesUnder J root).filter (fun f =>
    (if shouldInclude (walkPath path f.1) ((effectiveOptions options).files.getD [])
        ((effectiveOptions options).reverse.getD false) then none
      else f.2.map fun size => (⟨size, walkPath path f.1⟩ : RawDescriptor)).isSome),
    (List.filter_sublist _).trans (filesUnder_sublist J root), ?_, ?_⟩
  · intro f hf s hs
    exact (notHidden_iff s).1
      (filesUnder_visible J root f (List.mem_filter.1 hf).1 s hs).1
  · rw [hfs, List.map_map]
    unfold collected
    apply map_filterMap_eq_map_filter
    intro f y hy
    by_cases hs : shouldInclude (walkPath path f.1)
        ((effectiveOptions options).files.getD [])
        ((effectiveOptions options).reverse.getD false) = true
    · simp [hs] at hy
    · simp only [hs, Bool.false_eq_true, if_false] at hy
      cases hsz : f.2 with
      | none => simp [hsz] at hy
      | some size =>
        simp only [hsz, Option.map_some', Option.some.injEq] at hy
        subst hy
        simp [rewrite]

/-- Witness for C15: in `/data/photos` the hidden file `.DS_Store` gets no descriptor. -/
theorem getFiles_no_hidden_witness :
    ∃ sel : List (List Str × Option Nat), sel.Sublist (allFiles (.dir photos)) ∧
      (∀ f ∈ sel, ∀ s ∈ f.1, s.head? ≠ some dot) ∧
      [((js "/data/photos/a.jpg"), some 10), ((js "/data/photos/sub/b.jpg"), some 20)] =
        sel.map (fun f => (walkPath (js "/data/photos") f.1, f.2)) :=
  getFiles_no_hidden (fun _ => true) (js "/data/photos") (.dir photos) none
    [⟨10, [(js "a.jpg")], (js "/data/photos/a.jpg")⟩,
      ⟨20, [(js "sub"), (js "b.jpg")], (js "/data/photos/sub/b.jpg")⟩] (by decide)

/-! ## Lemmas on removing the effective root -/

theorem removeFirst_of_not_includes (r : Str) :
    ∀ s : Str, includes s r = false → removeFirst r s = s
  | [], _ => rfl
  | c :: cs, h => by
    simp only [includes, Bool.or_eq_false_iff] at h
    rw [removeFirst, if_neg (by simp [h.1]), removeFirst_of_not_includes r cs h.2]

theorem removeFirst_length (r : Str) :
    ∀ s : Str, includes s r = true → (removeFirst r s).length + r.length = s.length
  | [], h => by
    simp only [includes, List.isEmpty_iff] at h
    subst h
    rfl
  | c :: cs, h => by
    simp only [includes, Bool.or_eq_true] at h
    by_cases hp : r.isPrefixOf (c :: cs) = true
    · rw [removeFirst, if_pos hp, List.length_drop]
      have hle : r.length ≤ (c :: cs).length := (List.isPrefixOf_iff_prefix.1 hp).length_le
      omega
    · have h2 : includes cs r = true := by
        rcases h with h | h
        · exact absurd h hp
        · exact h
      rw [removeFirst, if_neg hp, List.length_cons, List.length_cons]
      have := removeFirst_length r cs h2
      omega

theorem trailing_sep_getLast (p : Str) :
    (if p.getLast? != some sep then p ++ [sep] else p).getLast? = some sep := by
  split_ifs with h
  · rw [List.getLast?_concat]
  · simpa using h

theorem effectiveRoot_getLast (path : Str) (options : Options) :
    (effectiveRoot path options).getLast? = some sep := by
  unfold effectiveRoot
  exact trailing_sep_getLast _

theorem effectiveRoot_ne_nil (path : Str) (options : Options) :
    effectiveRoot path options ≠ [] := by
  intro h
  have := effectiveRoot_getLast path options
  rw [h] at this
  simp at this

theorem sliceTo_length_append (a b : Str) : sliceTo (a ++ b) (a.length : Int) = a := by
  unfold sliceTo
  have : ¬ ((a.length : Int) < 0) := by omega
  rw [if_neg this, Int.toNat_ofNat, List.take_left' rfl]

/-! ## The root folder and root stripping: claims C11, C12, C16 -/

/-- C11 (evaluation at the failing input): with `keepRoot = true` and
`rootFolder = 'photos'`, the root `/data/photos` yields `['photos', 'a.jpg']` and
`['photos', 'sub', 'b.jpg']`, but the root `/myphotos/photos`, of which `photos` is a
segment too, yields `['', 'myphotos', 'photos', 'a.jpg']` and
`['', 'myphotos', 'photos', 'sub', 'b.jpg']`: the paths do not start from the folder. -/
theorem getFiles_rootFolder_first_occurrence :
    getFiles (fun _ => true) (js "/data/photos") (.dir photos)
        (some { keepRoot := true, rootFolder := (js "photos") }) =
        .ok [⟨10, [(js "photos"), (js "a.jpg")], (js "/data/photos/a.jpg")⟩,
          ⟨20, [(js "photos"), (js "sub"), (js "b.jpg")],
            (js "/data/photos/sub/b.jpg")⟩] ∧
      (js "photos") ∈ split sep (js "/myphotos/photos") ∧
      normalize (js "/myphotos/photos") = (js "/myphotos/photos") ∧
      getFiles (fun _ => true) (js "/myphotos/photos") (.dir photos)
        (some { keepRoot := true, rootFolder := (js "photos") }) =
        .ok [⟨10, [(js ""), (js "myphotos"), (js "photos"), (js "a.jpg")],
            (js "/myphotos/photos/a.jpg")⟩,
          ⟨20, [(js ""), (js "myphotos"), (js "photos"), (js "sub"), (js "b.jpg")],
            (js "/myphotos/photos/sub/b.jpg")⟩] := by
  decide

/-- With `keepRoot = true` and a `rootFolder` that is a segment of the absolute
normalized root path and whose first occurrence in that path is this segment, the
descriptor of the file reached through the entries `s1, ..., sn` has the path
`rootFolder`, the segments `B` of the root after it, `s1, ..., sn`. -/
theorem getFiles_rootFolder_paths (J : Str → Bool) (r : Str) (es : List (Str × Node))
    (options : Option Options) (A B : List Str) (folder : Str)
    (hP : ∀ s ∈ A ++ folder :: B, Plain s)
    (hr : r = absPath (A ++ folder :: B) ∨ r = absPath (A ++ folder :: B) ++ [sep])
    (hnorm : normalize r = r) (hnames : validEntryNames es = true)
    (hk : (effectiveOptions options).keepRoot = true)
    (hf : (effectiveOptions options).rootFolder = folder)
    (hidx : indexOf r folder =
      ((if A = [] then [sep] else absPath A ++ [sep]).length : Int)) :
    (∀ fs, getFiles J r (.dir es) options = .ok fs →
        fs = descriptorsBelow J r es (effectiveOptions options) (folder :: B)) ∧
      (regularEntries es = true → ∃ fs, getFiles J r (.dir es) options = .ok fs) := by
  have hr' : r = absPath (A ++ folder :: B) ∨
      (A ++ folder :: B ≠ [] ∧ r = absPath (A ++ folder :: B) ++ [sep]) := by
    rcases hr with h | h
    · exact Or.inl h
    · exact Or.inr ⟨by simp, h⟩
  have hsplit : ∃ trail, r = (if A = [] then [sep] else absPath A ++ [sep]) ++ trail := by
    rcases hr with h | h
    · exact ⟨_, by rw [h, absPath_append A (folder :: B) (by simp)]⟩
    · exact ⟨joinWith sep (folder :: B) ++ [sep], by
        rw [h, absPath_append A (folder :: B) (by simp), List.append_assoc]⟩
  have hfolder : folder ≠ [] := (hP folder (by simp)).1
  have hroot : effectiveRoot r (effectiveOptions options) =
      if A = [] then [sep] else absPath A ++ [sep] := by
    obtain ⟨trail, htrail⟩ := hsplit
    have hslice : sliceTo r (indexOf r folder) =
        if A = [] then [sep] else absPath A ++ [sep] := by
      rw [hidx]
      conv_lhs => rw [htrail]
      exact sliceTo_length_append _ trail
    have hemp : folder.isEmpty = false := by
      cases folder with
      | nil => exact absurd rfl hfolder
      | cons a b => rfl
    unfold effectiveRoot
    simp only [hnorm, hk, if_true, hf, hemp, Bool.false_eq_true, if_false, hslice]
    by_cases hA : A = []
    · simp [hA]
    · simp [hA]
  have hrootne : effectiveRoot r (effectiveOptions options) ≠ [] :=
    effectiveRoot_ne_nil r _
  refine ⟨?_, ?_⟩
  · intro fs hfs
    rw [getFiles_ok J r (.dir es) options fs hfs, collected_dir]
    apply rewrite_collectedIn
    intro f hf'
    obtain ⟨hne, hplain⟩ := filesIn_plain J es hnames f hf'
    have hpl : ∀ s ∈ folder :: B ++ f.1, Plain s := by
      intro s hs
      rcases List.mem_append.1 hs with hs | hs
      · exact hP s (List.mem_append_right _ hs)
      · exact hplain s hs
    apply split_removeFirst _ _ _ hrootne _ (by simp) hpl
    rw [walkPath_absolute f.1 (A ++ folder :: B) r hP hplain hne hr', hroot,
      List.append_assoc, absPath_append A (folder :: B ++ f.1) (by simp)]
  · intro hreg
    exact getFiles_regular J r (.dir es) options (by simpa [Node.regular] using hreg)

/-- The root `/data/photos/2024` with `rootFolder = 'photos'`: the paths start with
`photos`, `2024`. -/
theorem getFiles_rootFolder_paths_example :
    getFiles (fun _ => true) (js "/data/photos/2024") (.dir photos)
        (some { keepRoot := true, rootFolder := (js "photos") }) =
      .ok (descriptorsBelow (fun _ => true) (js "/data/photos/2024") photos
        { keepRoot := true, rootFolder := (js "photos") }
        [(js "photos"), (js "2024")]) := by
  have h := getFiles_rootFolder_paths (fun _ => true) (js "/data/photos/2024") photos
    (some { keepRoot := true, rootFolder := (js "photos") })
    [(js "data")] [(js "2024")] (js "photos")
    (by
      intro s hs
      simp only [List.cons_append, List.nil_append, List.mem_cons, List.mem_singleton,
        List.not_mem_nil, or_false] at hs
      rcases hs with rfl | rfl | rfl <;> exact ⟨by decide, by decide, by decide, by decide⟩)
    (Or.inl (by decide)) (by decide) (by decide) rfl rfl (by decide)
  obtain ⟨fs, hfs⟩ := h.2 (by decide)
  rw [hfs, h.1 fs hfs]
  rfl

/-- For an absolute root path that `corePath.normalize` leaves unchanged and
`keepRoot = false`, the walk path of every reached file below the directory is the
effective root followed by the entry names joined with the separator. -/
theorem walkPath_eq_root_append (J : Str → Bool) (r : Str) (es : List (Str × Node))
    (options : Options) (habs : r.head? = some sep) (hnorm : normalize r = r)
    (hnames : validEntryNames es = true) (hk : options.keepRoot = false) :
    ∀ f ∈ filesIn J es, f.1 ≠ [] ∧ (∀ s ∈ f.1, Plain s) ∧
      walkPath r f.1 = effectiveRoot r options ++ joinWith sep f.1 := by
  obtain ⟨P, hP, hr⟩ := normalized_absolute_form r habs hnorm
  have hroot := effectiveRoot_keepRoot_false P r options hP hnorm hk hr
  intro f hf
  obtain ⟨hne, hplain⟩ := filesIn_plain J es hnames f hf
  refine ⟨hne, hplain, ?_⟩
  rw [walkPath_absolute f.1 P r hP hplain hne hr, absPath_append P f.1 hne, hroot]

/-- With `keepRoot = false` and an absolute normalized root directory path, for every
descriptor `getFiles` returns the effective root is a prefix of the walk path, and the
effective root followed by the segments joined with the separator is the walk path. -/
theorem getFiles_strips_effective_root (J : Str → Bool) (r : Str)
    (es : List (Str × Node)) (options : Option Options) (fs : List FileDescriptor)
    (habs : r.head? = some sep) (hnorm : normalize r = r)
    (hnames : validEntryNames es = true)
    (hk : (effectiveOptions options).keepRoot = false)
    (h : getFiles J r (.dir es) options = .ok fs) :
    ∀ d ∈ fs, effectiveRoot r (effectiveOptions options) <+: d.getStream ∧
      effectiveRoot r (effectiveOptions options) ++ joinWith sep d.path = d.getStream := by
  have hw := walkPath_eq_root_append J r es (effectiveOptions options) habs hnorm hnames hk
  have hfs : fs = descriptorsBelow J r es (effectiveOptions options) [] := by
    rw [getFiles_ok J r (.dir es) options fs h, collected_dir]
    apply rewrite_collectedIn
    intro f hf
    obtain ⟨hne, hplain, hwalk⟩ := hw f hf
    rw [List.nil_append]
    exact split_removeFirst _ _ f.1 (effectiveRoot_ne_nil r _) hwalk hne hplain
  intro d hd
  rw [hfs] at hd
  unfold descriptorsBelow at hd
  rw [List.mem_filterMap] at hd
  obtain ⟨f, hf, hg⟩ := hd
  obtain ⟨_, _, hwalk⟩ := hw f hf
  by_cases hs : shouldInclude (walkPath r f.1)
      ((effectiveOptions options).files.getD [])
      ((effectiveOptions options).reverse.getD false) = true
  · simp [hs] at hg
  · simp only [hs, Bool.false_eq_true, if_false] at hg
    cases hsz : f.2 with
    | none => simp [hsz] at hg
    | some size =>
      simp only [hsz, Option.map_some', Option.some.injEq] at hg
      subst hg
      simp only [List.nil_append]
      exact ⟨⟨joinWith sep f.1, hwalk.symm⟩, hwalk.symm⟩

/-- The root `/data/a.jpg`, a single regular file, with the default options: a separator
is appended to the effective root, which then is not a prefix of the walk path, and the
descriptor gets the path `['', 'data', 'a.jpg']`. -/
theorem getFiles_single_file_root :
    getFiles (fun _ => true) (js "/data/a.jpg") (.file (some 10)) none =
        .ok [⟨10, [(js ""), (js "data"), (js "a.jpg")], (js "/data/a.jpg")⟩] ∧
      effectiveRoot (js "/data/a.jpg") (effectiveOptions none) = (js "/data/a.jpg/") := by
  decide

/-- C12 (evaluation at the failing input): for the relative root `photos` with
`keepRoot = true` and an empty `rootFolder` the effective root is `/`, which is not a
prefix of the walk path `photos/a.jpg`; the first separator inside the walk path is
removed and the descriptors get the paths `['photosa.jpg']` and `['photossub', 'b.jpg']`:
the effective root followed by the joined segments is not the walk path. -/
theorem getFiles_relative_root_keepRoot :
    getFiles (fun _ => true) (js "photos") (.dir photos)
        (some { keepRoot := true, rootFolder := [] }) =
        .ok [⟨10, [(js "photosa.jpg")], (js "photos/a.jpg")⟩,
          ⟨20, [(js "photossub"), (js "b.jpg")], (js "photos/sub/b.jpg")⟩] ∧
      normalize (js "photos") = (js "photos") ∧
      lastIndexOf sep (js "photos") = -1 ∧
      effectiveRoot (js "photos") { keepRoot := true, rootFolder := [] } = (js "/") ∧
      startsWith (js "photos/a.jpg") (js "/") = false ∧
      (js "/") ++ joinWith sep [(js "photosa.jpg")] ≠ (js "photos/a.jpg") := by
  decide

/-- C16 (counterexample): the effective root `/a/` ends with one separator; removing it
from the raw path `/a/c/a/d` gives `c/a/d`, and removing it once more gives `cd`: the
segments change from `['c', 'a', 'd']` to `['cd']`. -/
theorem strip_twice_counterexample :
    (js "/a/").getLast? = some sep ∧
      removeFirst (js "/a/") (js "/a/c/a/d") = (js "c/a/d") ∧
      removeFirst (js "/a/") (removeFirst (js "/a/") (js "/a/c/a/d")) = (js "cd") ∧
      split sep (removeFirst (js "/a/") (js "/a/c/a/d")) =
        [(js "c"), (js "a"), (js "d")] ∧
      split sep (removeFirst (js "/a/") (removeFirst (js "/a/") (js "/a/c/a/d"))) =
        [(js "cd")] := by
  decide

/-- C16 (amended): for an effective root `r` that ends with the separator, removing `r`
from the already stripped path changes nothing exactly when `r` does not occur in the
stripped path any more. -/
theorem strip_idempotent_iff (r p : Str) (hr : r.getLast? = some sep) :
    removeFirst r (removeFirst r p) = removeFirst r p ↔
      includes (removeFirst r p) r = false := by
  have hne : 0 < r.length := by
    cases r with
    | nil => simp at hr
    | cons a b => simp
  constructor
  · intro h
    cases hi : includes (removeFirst r p) r with
    | false => rfl
    | true =>
      have hlen := removeFirst_length r (removeFirst r p) hi
      rw [h] at hlen
      omega
  · exact removeFirst_of_not_includes r _

/-- Witness for C16: the effective root `/data/photos/` and the raw path
`/data/photos/sub/b.jpg`. -/
theorem strip_idempotent_iff_witness :
    removeFirst (js "/data/photos/")
        (removeFirst (js "/data/photos/") (js "/data/photos/sub/b.jpg")) =
      removeFirst (js "/data/photos/") (js "/data/photos/sub/b.jpg") :=
  (strip_idempotent_iff (js "/data/photos/") (js "/data/photos/sub/b.jpg")
    (by decide)).2 (by decide)

end CreateTorrent
